import Mathlib

/-!
Verification development for the math-question heuristics and the safe
arithmetic evaluator of the assistant repository:

* `src/utils/math_utils.py` — `is_math_question`, `extract_expression`
* `src/calculator/evaluator.py` — `safe_eval` and its recursive whitelist
  walk `_eval`
* `src/main.py` — the integer-presentation step of `handle_math`

The Python code is embedded shallowly: strings are Lean `String`s, Python
`None` inputs are modelled with `Option`, Python exceptions become
`Except` errors, Python `int` is `ℤ` (arbitrary precision), and Python
`float` is idealised as an exact rational `ℚ` (the host's IEEE-754
rounding is outside the model; division and power on small literals used
in this development are exact in both).  Character classes are the ASCII
fragments of the corresponding Python regex classes (`\s`, `\d`); the
repository's own test inputs are all ASCII.
-/

/-! ## Character classes (ASCII fragment of the Python regex classes) -/

/-- ASCII fragment of the characters matched by the regex class `\s` and
stripped by `str.strip()`. -/
def isPySpace (c : Char) : Bool :=
  c = ' ' || c = '\t' || c = '\n' || c = '\r' || c = '\x0b' || c = '\x0c'

/-- The five operator characters `+ - * / ^` tested by `is_math_question`
(`has_op`) and appearing in the class `[\+\-\*\/\^]` of its loose regex. -/
def isOpChar (c : Char) : Bool :=
  c = '+' || c = '-' || c = '*' || c = '/' || c = '^'

/-- The character class `[0-9\.\s\+\-\*\/\^\(\)]` used both by
`_MATH_CHARS` in `is_math_question` and by the `re.findall` pattern of
`extract_expression` (the two patterns list the same characters). -/
def isMathChar (c : Char) : Bool :=
  c.isDigit || c = '.' || c = '+' || c = '-' || c = '*' || c = '/' ||
  c = '^' || c = '(' || c = ')' || isPySpace c

/-! ## Model of `extract_expression` (src/utils/math_utils.py lines 16-26) -/

/-- One step of the right fold that splits a character list into the
maximal runs of `isMathChar` characters.  The boolean records whether the
character just to the right of the current position belongs to a run, so
a math character either extends the run it is adjacent to or opens a new
one. -/
def runsStep (c : Char) (p : List (List Char) × Bool) :
    List (List Char) × Bool :=
  if isMathChar c then
    if p.2 then ((c :: p.1.headI) :: p.1.tail, true)
    else ([c] :: p.1, true)
  else (p.1, false)

def runsAux (cs : List Char) : List (List Char) × Bool :=
  cs.foldr runsStep ([], false)

/-- Model of `re.findall(r"[0-9\.\s\+\-\*\/\^\(\)]+", text)`: the maximal
contiguous runs of `isMathChar` characters, in order of occurrence.
`specRuns_mathRuns` below proves that this function produces exactly a
maximal-run decomposition in the sense of the specification. -/
def mathRuns (cs : List Char) : List (List Char) :=
  (runsAux cs).1

/-- Model of Python's `max(matches, key=len)`: fold from the left keeping
the current best, replacing it only on a strictly greater length — so the
first of several longest elements wins, as `max` does. -/
def pyMaxByLen : List (List Char) → Option (List Char)
  | [] => Option.none
  | r :: rs =>
      some (rs.foldl (fun best x => if best.length < x.length then x else best) r)

/-- Model of `str.strip()` (no argument): remove leading and trailing
whitespace. -/
def pyStrip (cs : List Char) : List Char :=
  ((cs.dropWhile isPySpace).reverse.dropWhile isPySpace).reverse

/-- Model of `re.sub(r"\s+", "", expr)`: delete every whitespace
character. -/
def stripAllWs (cs : List Char) : List Char :=
  cs.filter (fun c => !isPySpace c)

/-- Model of `extract_expression` from src/utils/math_utils.py.  A `none`
input models Python `None`; `if not text` is false for `None` and for the
empty string.  The final `expr or None` collapses an empty cleaned string
to `None`. -/
def extract_expression (input : Option String) : Option String :=
  match input with
  | Option.none => Option.none
  | some s =>
      if s.data = [] then Option.none
      else
        match pyMaxByLen (mathRuns s.data) with
        | Option.none => Option.none
        | some r =>
            let e := stripAllWs (pyStrip r)
            if e = [] then Option.none else some (String.mk e)

/-! ## Model of `is_math_question` (src/utils/math_utils.py lines 7-14) -/

/-- Attempted match of the regex `\d+\s*[\+\-\*\/\^]\s*\d+` anchored at
the start of `cs`.  The pattern is deterministic: each greedy `\d+`/`\s*`
cannot steal characters from the following piece, because the character
classes digit / whitespace / operator are pairwise disjoint. -/
def looseAt (cs : List Char) : Bool :=
  let d1 := cs.takeWhile Char.isDigit
  if d1.isEmpty then false
  else
    match (cs.dropWhile Char.isDigit).dropWhile isPySpace with
    | c :: r =>
        if isOpChar c then
          !(((r.dropWhile isPySpace).takeWhile Char.isDigit).isEmpty)
        else false
    | [] => false

/-- Model of `re.search(r"\d+\s*[\+\-\*\/\^]\s*\d+", text)` cast to bool:
the pattern matches somewhere in the text, i.e. at some suffix start. -/
def looseSearch (cs : List Char) : Bool :=
  cs.tails.any looseAt

/-- Model of `is_math_question` from src/utils/math_utils.py.  `not text`
is true for Python `None` and for the empty string.  `only_mathish`,
`has_digit` and `has_op` are the three `all`/`any` scans of the source;
the final expression is their conjunction or-ed with the loose regex
search. -/
def is_math_question (input : Option String) : Bool :=
  match input with
  | Option.none => false
  | some s =>
      if s.data = [] then false
      else
        (s.data.all isMathChar && s.data.any Char.isDigit &&
          s.data.any isOpChar) || looseSearch s.data

/-! ## Specification-side predicates for the extractor and heuristics -/

/-- Maximal-run decomposition, written from the specification: the text
is an alternation of (possibly empty) gaps of non-class characters and
nonempty runs of class characters, each run flanked by gap characters (or
the ends of the text) on both sides.  `SpecRuns cs rs` states that `rs`
lists exactly the maximal contiguous runs of `isMathChar` characters of
`cs`, in order. -/
inductive SpecRuns : List Char → List (List Char) → Prop
  | gapOnly (g : List Char) (hg : ∀ c ∈ g, isMathChar c = false) :
      SpecRuns g []
  | run (g r rest : List Char) (rs : List (List Char))
      (hg : ∀ c ∈ g, isMathChar c = false)
      (hr : r ≠ [])
      (hrm : ∀ c ∈ r, isMathChar c = true)
      (hmax : ∀ c, rest.head? = some c → isMathChar c = false)
      (hrest : SpecRuns rest rs) :
      SpecRuns (g ++ (r ++ rest)) (r :: rs)

/-- Specification of "select the longest run, ties broken in favour of
the first occurrence": `r` occurs in `rs`, everything strictly before
that occurrence is strictly shorter, and nothing in `rs` is longer. -/
def FirstLongest (rs : List (List Char)) (r : List Char) : Prop :=
  ∃ pre post, rs = pre ++ r :: post ∧
    (∀ x ∈ pre, x.length < r.length) ∧
    (∀ x ∈ rs, x.length ≤ r.length)

/-- Strict heuristic of `is_math_question`, written from the
specification: every character belongs to the math class, at least one
digit is present, and at least one operator character is present. -/
def StrictHeur (s : String) : Prop :=
  (∀ c ∈ s.data, isMathChar c = true) ∧
    (∃ c ∈ s.data, c.isDigit = true) ∧
    (∃ c ∈ s.data, isOpChar c = true)

/-- Loose heuristic of `is_math_question`, written from the
specification: somewhere in the text there is a nonempty digit sequence,
optional whitespace, one operator character, optional whitespace, and a
nonempty digit sequence. -/
def LooseHeur (s : String) : Prop :=
  ∃ pre d1 w1 o w2 d2 post,
    s.data = pre ++ d1 ++ w1 ++ o :: (w2 ++ d2 ++ post) ∧
    d1 ≠ [] ∧ (∀ c ∈ d1, c.isDigit = true) ∧
    (∀ c ∈ w1, isPySpace c = true) ∧
    isOpChar o = true ∧
    (∀ c ∈ w2, isPySpace c = true) ∧
    d2 ≠ [] ∧ (∀ c ∈ d2, c.isDigit = true)

/-! ## Model of the safe evaluator (src/calculator/evaluator.py)

The evaluator pipeline is `safe_eval`: reject empty/`None` input, rewrite
`^` to the host power token `**`, parse with the host's general expression
parser `ast.parse(mode="eval")`, and walk the tree with the whitelist
evaluator `_eval`.  The host lexer and parser are modelled on the fragment
that the evaluator can meet through this repository: numeric literals
(decimal integers and floats without underscores or exponents), string
literals in single quotes without escapes, identifiers and the keyword
constants True/False/None, calls, attribute access, the binary operators
`+ - * / // % **`, unary sign, parentheses and inline whitespace, all on a
single line.  Newlines, characters outside the fragment and leading
indentation are lexing errors (the host treats leading indentation as an
IndentationError in eval mode and rejects interior newlines; only a
trailing newline, which the fragment omits, would be accepted). -/

/-- Python runtime values occurring as `ast.Constant` payloads in the
modelled fragment.  Python `float` is idealised as an exact rational;
complex literals are outside the fragment. -/
inductive PyVal where
  | intVal (n : ℤ)
  | floatVal (q : ℚ)
  | boolVal (b : Bool)
  | strVal (s : String)
  | noneVal
deriving DecidableEq

/-- Unary operator nodes of the host AST (`USub`, `UAdd`, `Not`,
`Invert`); only the first two are in `_ALLOWED`. -/
inductive UnOpK where
  | uSub
  | uAdd
  | uNot
  | uInvert
deriving DecidableEq

/-- Binary operator nodes of the host AST met in the fragment (`Add`,
`Sub`, `Mult`, `Div`, `Pow`, `Mod`, `FloorDiv`); only the first five are
in `_ALLOWED`. -/
inductive BinOpK where
  | addOp
  | subOp
  | multOp
  | divOp
  | powOp
  | modOp
  | floorDivOp
deriving DecidableEq

/-- The host abstract syntax trees of the modelled fragment: constants,
binary and unary operations, names, calls, and attribute access.  (Nodes
such as comparisons, subscripts or displays do not arise from the
fragment's grammar; like every node below other than whitelisted
constants, binops and unary ops, they would fall to the walker's default
failure branch.) -/
inductive PyAst where
  | constant (v : PyVal)
  | binop (k : BinOpK) (l r : PyAst)
  | unaryop (k : UnOpK) (e : PyAst)
  | name (id : String)
  | call (f : PyAst) (args : List PyAst)
  | attr (obj : PyAst) (fld : String)

/-- Results of the evaluator: the source annotates `Number =
Union[int, float]`; boolean results additionally occur because `bool` is
a subclass of `int` and passes the literal check (see claim C10). -/
inductive Number where
  | intNum (n : ℤ)
  | floatNum (q : ℚ)
  | boolNum (b : Bool)
deriving DecidableEq

def Number.isFloat : Number → Bool
  | floatNum _ => true
  | _ => false

/-- The Python integer meaning of a non-float value (`True` counts as 1,
`False` as 0, as in the host's arithmetic on bools).  The float branch is
never consulted by the operations below. -/
def Number.toZ : Number → ℤ
  | intNum n => n
  | boolNum b => if b then 1 else 0
  | floatNum q => q.num

/-- The exact rational meaning of a value. -/
def Number.toRat : Number → ℚ
  | intNum n => (n : ℚ)
  | boolNum b => if b then 1 else 0
  | floatNum q => q

/-- Exact rational arithmetic written with `mkRat`, which the kernel
evaluates (the arithmetic of `Rat` itself is compiler-accelerated and
opaque to kernel reduction).  `qadd_eq_add` below proves this is the
field addition of ℚ. -/
def qadd (a b : ℚ) : ℚ :=
  mkRat (a.num * (b.den : ℤ) + b.num * (a.den : ℤ)) (a.den * b.den)

/-- Exact subtraction on ℚ; `qsub_eq_sub` proves it is field
subtraction. -/
def qsub (a b : ℚ) : ℚ :=
  mkRat (a.num * (b.den : ℤ) - b.num * (a.den : ℤ)) (a.den * b.den)

/-- Exact multiplication on ℚ; `qmul_eq_mul` proves it is field
multiplication. -/
def qmul (a b : ℚ) : ℚ :=
  mkRat (a.num * b.num) (a.den * b.den)

/-- Exact division on ℚ; `qdiv_eq_div` proves it is field division. -/
def qdiv (a b : ℚ) : ℚ :=
  if 0 ≤ b.num then mkRat (a.num * (b.den : ℤ)) (a.den * b.num.toNat)
  else mkRat (-(a.num * (b.den : ℤ))) (a.den * (-b.num).toNat)

/-- Exact natural power on ℚ; `qpowNat_eq_pow` proves it is the monoid
power. -/
def qpowNat (q : ℚ) : ℕ → ℚ
  | 0 => 1
  | n + 1 => qmul (qpowNat q n) q

/-- Integer power on ℚ in kernel-evaluable form; `ratPow_eq_zpow` proves
it is `zpow`. -/
def ratPow (q : ℚ) (e : ℤ) : ℚ :=
  if 0 ≤ e then qpowNat q e.toNat else qdiv 1 (qpowNat q (-e).toNat)

/-- Host floating-point power at a non-integer exponent: its exact value
is in general irrational (or complex for a negative base), hence outside
the exact-rational idealisation; the model leaves it uninterpreted at 0.
No claim of this development depends on this case. -/
def floatPowIrr (_b _e : ℚ) : ℚ := 0

/-- The two exceptions that can escape the whitelist walk: the
`EvalError("Unsupported operation or structure.")` raised by its default
branch, and the host's `ZeroDivisionError` raised by `operator.truediv`
and `operator.pow`. -/
inductive EvalExc where
  | unsupported
  | zeroDiv
deriving DecidableEq

/-- `operator.add` on the evaluator's values: a float operand makes the
result float, otherwise integer arithmetic (bools coerce to 0/1). -/
def Number.add (a b : Number) : Number :=
  if a.isFloat || b.isFloat then floatNum (qadd a.toRat b.toRat)
  else intNum (a.toZ + b.toZ)

/-- `operator.sub`, with the same promotion rule as addition. -/
def Number.sub (a b : Number) : Number :=
  if a.isFloat || b.isFloat then floatNum (qsub a.toRat b.toRat)
  else intNum (a.toZ - b.toZ)

/-- `operator.mul`, with the same promotion rule as addition. -/
def Number.mul (a b : Number) : Number :=
  if a.isFloat || b.isFloat then floatNum (qmul a.toRat b.toRat)
  else intNum (a.toZ * b.toZ)

/-- `operator.truediv`: true division always produces a float and raises
`ZeroDivisionError` on a zero divisor. -/
def Number.div (a b : Number) : Except EvalExc Number :=
  if b.toRat = 0 then Except.error EvalExc.zeroDiv
  else Except.ok (floatNum (qdiv a.toRat b.toRat))

/-- `operator.pow` following the host's numeric promotion: an integer (or
bool) base and nonnegative integer exponent give an integer; a negative
integer exponent gives a float and raises `ZeroDivisionError` on base 0;
a float anywhere gives a float, with the non-integer-exponent case left
uninterpreted (`floatPowIrr`). -/
def Number.pow (a b : Number) : Except EvalExc Number :=
  if b.isFloat then
    if b.toRat.den = 1 then
      if a.toRat = 0 ∧ b.toRat.num < 0 then Except.error EvalExc.zeroDiv
      else Except.ok (floatNum (ratPow a.toRat b.toRat.num))
    else Except.ok (floatNum (floatPowIrr a.toRat b.toRat))
  else
    if a.isFloat then
      if a.toRat = 0 ∧ b.toZ < 0 then Except.error EvalExc.zeroDiv
      else Except.ok (floatNum (ratPow a.toRat b.toZ))
    else
      if 0 ≤ b.toZ then Except.ok (intNum (a.toZ ^ b.toZ.toNat))
      else if a.toZ = 0 then Except.error EvalExc.zeroDiv
      else Except.ok (floatNum (ratPow a.toRat b.toZ))

/-- `operator.neg`: negation; on an int or bool the result is an int. -/
def Number.negN : Number → Number
  | floatNum q => floatNum (-q)
  | x => intNum (-x.toZ)

/-- `operator.pos`: identity on the value, but an int result for a bool
operand (`+True == 1`). -/
def Number.posN : Number → Number
  | floatNum q => floatNum q
  | x => intNum x.toZ

/-- Membership of a binary operator node type in the `_ALLOWED` table. -/
def allowedBin : BinOpK → Bool
  | BinOpK.addOp => true
  | BinOpK.subOp => true
  | BinOpK.multOp => true
  | BinOpK.divOp => true
  | BinOpK.powOp => true
  | _ => false

/-- Membership of a unary operator node type in the `_ALLOWED` table. -/
def allowedUn : UnOpK → Bool
  | UnOpK.uSub => true
  | UnOpK.uAdd => true
  | _ => false

/-- Application of the `_ALLOWED` entry for a binary operator.  The
catch-all branch is unreachable through `evalA`, which checks
`allowedBin` first. -/
def applyBin (k : BinOpK) (a b : Number) : Except EvalExc Number :=
  match k with
  | BinOpK.addOp => Except.ok (a.add b)
  | BinOpK.subOp => Except.ok (a.sub b)
  | BinOpK.multOp => Except.ok (a.mul b)
  | BinOpK.divOp => a.div b
  | BinOpK.powOp => a.pow b
  | _ => Except.error EvalExc.unsupported

/-- Application of the `_ALLOWED` entry for a unary operator. -/
def applyUn (k : UnOpK) (a : Number) : Number :=
  match k with
  | UnOpK.uSub => a.negN
  | _ => a.posN

/-- Model of the recursive whitelist walk `_eval`.  Branch order in the
source: the legacy `ast.Num` instance check (true exactly for int/float
non-bool constants, returning `node.n`), then `ast.Constant` with an
`isinstance(value, (int, float))` check (which bools pass, `bool` being a
subclass of `int`), then `BinOp` and `UnaryOp` with their operator type
in `_ALLOWED`, and otherwise the raise of "Unsupported operation or
structure.".  The two constant branches return the same value and are
merged here.  A `BinOp`/`UnaryOp` whose operator is not allowed falls
through to the failure branch without evaluating its children; allowed
operators evaluate the left child before the right one, as the host
evaluates the arguments of `_ALLOWED[type(node.op)](...)`. -/
def evalA : PyAst → Except EvalExc Number
  | PyAst.constant (PyVal.intVal n) => Except.ok (Number.intNum n)
  | PyAst.constant (PyVal.floatVal q) => Except.ok (Number.floatNum q)
  | PyAst.constant (PyVal.boolVal b) => Except.ok (Number.boolNum b)
  | PyAst.binop k l r =>
      if allowedBin k then
        match evalA l with
        | Except.error e => Except.error e
        | Except.ok a =>
            match evalA r with
            | Except.error e => Except.error e
            | Except.ok b => applyBin k a b
      else Except.error EvalExc.unsupported
  | PyAst.unaryop k e =>
      if allowedUn k then
        match evalA e with
        | Except.error ex => Except.error ex
        | Except.ok a => Except.ok (applyUn k a)
      else Except.error EvalExc.unsupported
  | _ => Except.error EvalExc.unsupported

/-- Some node outside the evaluation whitelist {numeric (or boolean)
literal, binary operation with allowed operator, unary operation with
allowed operator} occurs in the tree.  Every non-whitelisted node shape
is itself outside the whitelist, so no recursion below such nodes is
needed. -/
def containsBad : PyAst → Bool
  | PyAst.constant (PyVal.intVal _) => false
  | PyAst.constant (PyVal.floatVal _) => false
  | PyAst.constant (PyVal.boolVal _) => false
  | PyAst.binop k l r => !allowedBin k || containsBad l || containsBad r
  | PyAst.unaryop k e => !allowedUn k || containsBad e
  | _ => true

/-! ### The host lexer on the fragment, and the spec grammar lexer -/

/-- Tokens of the modelled expression grammar. -/
inductive Tok where
  | numT (isFloat : Bool) (q : ℚ)
  | strT (cs : List Char)
  | identT (cs : List Char)
  | plusT
  | minusT
  | starT
  | slashT
  | dslashT
  | percentT
  | powT
  | lparenT
  | rparenT
  | commaT
  | dotT
deriving DecidableEq

def digitVal (c : Char) : ℕ := c.toNat - 48

def natOfDigits (ds : List Char) : ℕ :=
  ds.foldl (fun a c => 10 * a + digitVal c) 0

/-- The host rejects a decimal integer literal whose leading digit is 0
unless the literal consists only of zeros. -/
def intLitOk (ds : List Char) : Bool :=
  ds.length ≤ 1 || !(ds.headI = '0') || ds.all (fun c => c = '0')

def headIsDigit (cs : List Char) : Bool :=
  match cs with
  | [] => false
  | c :: _ => c.isDigit

/-- Munch a numeric literal: integer digits, then an optional dot with
fraction digits.  Returns the two digit groups, whether a dot was seen,
and the rest of the input. -/
def numSplit (cs : List Char) : List Char × Bool × List Char × List Char :=
  let ds := cs.takeWhile Char.isDigit
  let r1 := cs.dropWhile Char.isDigit
  if r1.headI = '.' ∧ r1 ≠ [] then
    (ds, true, r1.tail.takeWhile Char.isDigit, r1.tail.dropWhile Char.isDigit)
  else (ds, false, [], r1)

/-- Token of a munched numeric literal: a float when a dot is present (at
least one digit on some side), otherwise a decimal integer without
forbidden leading zeros. -/
def numTokOf (ds : List Char) (hasDot : Bool) (fs : List Char) :
    Except String Tok :=
  if hasDot then
    if ds.isEmpty && fs.isEmpty then Except.error ("invalid decimal literal")
    else Except.ok (Tok.numT true
      (qadd ((natOfDigits ds : ℚ)) (mkRat (natOfDigits fs : ℤ) (10 ^ fs.length))))
  else
    if ds.isEmpty then Except.error ("invalid decimal literal")
    else if intLitOk ds then Except.ok (Tok.numT false ((natOfDigits ds : ℚ)))
    else Except.error ("leading zeros in decimal integer literals")

def isIdentStart (c : Char) : Bool := c.isAlpha || c = '_'

def isIdentChar (c : Char) : Bool := c.isAlphanum || c = '_'

/-- The single-quote character, written by code so that no quote appears
in a string literal of this file. -/
def quoteChar : Char := Char.ofNat 39

/-- Inline whitespace skipped between tokens: space and tab.  Newlines
are not part of the fragment (the host rejects interior newlines in eval
mode). -/
def isInlineWs (c : Char) : Bool := c = ' ' || c = '\t'

/-- One step of the model of the host (CPython) expression lexer on the
fragment, consuming at least the one character `c`: whitespace skip,
numeric literal (maximal munch), lone dot, identifier, single-quoted
string, and the operator and punctuation characters, with maximal munch
turning two adjacent stars into the power token and two adjacent slashes
into floor division. -/
def srcStep (c : Char) (cs : List Char) :
    Except String (Option Tok × List Char) :=
  if isInlineWs c then Except.ok (Option.none, cs)
  else if c.isDigit || (c = '.' && headIsDigit cs) then
    match numSplit (c :: cs) with
    | (ds, hasDot, fs, rest) =>
        match numTokOf ds hasDot fs with
        | Except.ok t => Except.ok (some t, rest)
        | Except.error e => Except.error e
  else if c = '.' then Except.ok (some Tok.dotT, cs)
  else if isIdentStart c then
    Except.ok (some (Tok.identT (c :: cs.takeWhile isIdentChar)),
      cs.dropWhile isIdentChar)
  else if c = quoteChar then
    match cs.dropWhile (fun d => !(d = quoteChar)) with
    | _ :: rest =>
        Except.ok (some (Tok.strT (cs.takeWhile (fun d => !(d = quoteChar)))),
          rest)
    | [] => Except.error ("unterminated string literal")
  else if c = '+' then Except.ok (some Tok.plusT, cs)
  else if c = '-' then Except.ok (some Tok.minusT, cs)
  else if c = '*' then
    match cs with
    | d :: rest =>
        if d = '*' then Except.ok (some Tok.powT, rest)
        else Except.ok (some Tok.starT, cs)
    | [] => Except.ok (some Tok.starT, cs)
  else if c = '/' then
    match cs with
    | d :: rest =>
        if d = '/' then Except.ok (some Tok.dslashT, rest)
        else Except.ok (some Tok.slashT, cs)
    | [] => Except.ok (some Tok.slashT, cs)
  else if c = '%' then Except.ok (some Tok.percentT, cs)
  else if c = '(' then Except.ok (some Tok.lparenT, cs)
  else if c = ')' then Except.ok (some Tok.rparenT, cs)
  else if c = ',' then Except.ok (some Tok.commaT, cs)
  else Except.error ("invalid character")

/-- One lexing step of the specification's arithmetic grammar: digits and
decimal points, the operators `+ - * / ^` with `^` lexed directly as the
power operator, parentheses, and inline whitespace.  A star immediately
followed by a star or a caret, and a slash immediately followed by a
slash, are rejected here: no production of the grammar places two
multiplicative symbols side by side (a factor never starts with `*`, `/`
or `^`), so the rejection leaves the accepted language unchanged while
letting the lexer output align tokenwise with the host lexer applied
after the caret rewrite. -/
def specStep (c : Char) (cs : List Char) :
    Except String (Option Tok × List Char) :=
  if isInlineWs c then Except.ok (Option.none, cs)
  else if c.isDigit || (c = '.' && headIsDigit cs) then
    match numSplit (c :: cs) with
    | (ds, hasDot, fs, rest) =>
        match numTokOf ds hasDot fs with
        | Except.ok t => Except.ok (some t, rest)
        | Except.error e => Except.error e
  else if c = '+' then Except.ok (some Tok.plusT, cs)
  else if c = '-' then Except.ok (some Tok.minusT, cs)
  else if c = '^' then Except.ok (some Tok.powT, cs)
  else if c = '*' then
    match cs with
    | d :: _ =>
        if d = '*' || d = '^' then
          Except.error ("adjacent multiplicative symbols")
        else Except.ok (some Tok.starT, cs)
    | [] => Except.ok (some Tok.starT, cs)
  else if c = '/' then
    match cs with
    | d :: _ =>
        if d = '/' then Except.error ("adjacent slashes")
        else Except.ok (some Tok.slashT, cs)
    | [] => Except.ok (some Tok.slashT, cs)
  else if c = '(' then Except.ok (some Tok.lparenT, cs)
  else if c = ')' then Except.ok (some Tok.rparenT, cs)
  else Except.error ("character outside the arithmetic grammar")

/-- Fueled lexer driver: apply a lexing step until the input is consumed.
Each step consumes at least one character, so fuel `length + 1` always
suffices. -/
def tokDrive (step : Char → List Char → Except String (Option Tok × List Char)) :
    ℕ → List Char → Except String (List Tok)
  | 0, _ => Except.error ("lexer fuel exhausted")
  | _ + 1, [] => Except.ok []
  | f + 1, c :: cs =>
      match step c cs with
      | Except.error e => Except.error e
      | Except.ok (ot, rest) =>
          match tokDrive step f rest with
          | Except.error e => Except.error e
          | Except.ok ts =>
              Except.ok
                (match ot with
                  | some t => t :: ts
                  | Option.none => ts)

/-- Model of the host lexer for `ast.parse(mode="eval")` on the fragment.
Leading inline whitespace is an indentation error in eval mode. -/
def srcTokenize (cs : List Char) : Except String (List Tok) :=
  match cs with
  | [] => Except.ok []
  | c :: _ =>
      if isInlineWs c then Except.error ("unexpected indent")
      else tokDrive srcStep (cs.length + 1) cs

/-- Lexer of the specification grammar; as in the host, the expression
must start at the first character (no leading whitespace). -/
def specTokenize (cs : List Char) : Except String (List Tok) :=
  match cs with
  | [] => Except.ok []
  | c :: _ =>
      if isInlineWs c then Except.error ("leading whitespace")
      else tokDrive specStep (cs.length + 1) cs

/-- The AST atom the host parser produces for a lexed identifier: the
keyword constants True/False/None become constants, everything else a
Name node.  (Other keywords are modelled as names; both are outside the
whitelist.) -/
def keywordOrName (cs : List Char) : PyAst :=
  if cs = ['T', 'r', 'u', 'e'] then PyAst.constant (PyVal.boolVal true)
  else if cs = ['F', 'a', 'l', 's', 'e'] then PyAst.constant (PyVal.boolVal false)
  else if cs = ['N', 'o', 'n', 'e'] then PyAst.constant PyVal.noneVal
  else PyAst.name (String.mk cs)

/-! ### Recursive-descent parser for the fragment grammar

The grammar is the host expression grammar restricted to the fragment,
which on the arithmetic part coincides with the specification's "standard
operator precedence" reading: a sum level (`+ -`, left-associative by the
accumulating loop), a term level (`* / // %`, left-associative), unary
sign, then power, right-associative because its right operand is again a
signed factor (so `2^3^2 = 2^(3^2)` and `-2^2 = -(2^2)`, as in the host),
then atoms with call/attribute trailers.  All functions consume tokens
from the front and return the remaining tokens; the fuel argument
strictly decreases on every call, and `4 * length + 8` is always enough
because each non-consuming descent chain has constant depth. -/

mutual

def parseE : ℕ → List Tok → Except String (PyAst × List Tok)
  | 0, _ => Except.error ("parser fuel exhausted")
  | f + 1, ts =>
      match parseT f ts with
      | Except.error e => Except.error e
      | Except.ok (a, ts1) => parseELoop f a ts1

def parseELoop : ℕ → PyAst → List Tok → Except String (PyAst × List Tok)
  | 0, _, _ => Except.error ("parser fuel exhausted")
  | f + 1, acc, ts =>
      match ts with
      | Tok.plusT :: ts1 =>
          match parseT f ts1 with
          | Except.error e => Except.error e
          | Except.ok (b, ts2) =>
              parseELoop f (PyAst.binop BinOpK.addOp acc b) ts2
      | Tok.minusT :: ts1 =>
          match parseT f ts1 with
          | Except.error e => Except.error e
          | Except.ok (b, ts2) =>
              parseELoop f (PyAst.binop BinOpK.subOp acc b) ts2
      | _ => Except.ok (acc, ts)

def parseT : ℕ → List Tok → Except String (PyAst × List Tok)
  | 0, _ => Except.error ("parser fuel exhausted")
  | f + 1, ts =>
      match parseF f ts with
      | Except.error e => Except.error e
      | Except.ok (a, ts1) => parseTLoop f a ts1

def parseTLoop : ℕ → PyAst → List Tok → Except String (PyAst × List Tok)
  | 0, _, _ => Except.error ("parser fuel exhausted")
  | f + 1, acc, ts =>
      match ts with
      | Tok.starT :: ts1 =>
          match parseF f ts1 with
          | Except.error e => Except.error e
          | Except.ok (b, ts2) =>
              parseTLoop f (PyAst.binop BinOpK.multOp acc b) ts2
      | Tok.slashT :: ts1 =>
          match parseF f ts1 with
          | Except.error e => Except.error e
          | Except.ok (b, ts2) =>
              parseTLoop f (PyAst.binop BinOpK.divOp acc b) ts2
      | Tok.dslashT :: ts1 =>
          match parseF f ts1 with
          | Except.error e => Except.error e
          | Except.ok (b, ts2) =>
              parseTLoop f (PyAst.binop BinOpK.floorDivOp acc b) ts2
      | Tok.percentT :: ts1 =>
          match parseF f ts1 with
          | Except.error e => Except.error e
          | Except.ok (b, ts2) =>
              parseTLoop f (PyAst.binop BinOpK.modOp acc b) ts2
      | _ => Except.ok (acc, ts)

def parseF : ℕ → List Tok → Except String (PyAst × List Tok)
  | 0, _ => Except.error ("parser fuel exhausted")
  | f + 1, ts =>
      match ts with
      | Tok.minusT :: ts1 =>
          match parseF f ts1 with
          | Except.error e => Except.error e
          | Except.ok (a, ts2) => Except.ok (PyAst.unaryop UnOpK.uSub a, ts2)
      | Tok.plusT :: ts1 =>
          match parseF f ts1 with
          | Except.error e => Except.error e
          | Except.ok (a, ts2) => Except.ok (PyAst.unaryop UnOpK.uAdd a, ts2)
      | _ => parsePowE f ts

def parsePowE : ℕ → List Tok → Except String (PyAst × List Tok)
  | 0, _ => Except.error ("parser fuel exhausted")
  | f + 1, ts =>
      match parseAtomTr f ts with
      | Except.error e => Except.error e
      | Except.ok (a, ts1) =>
          match ts1 with
          | Tok.powT :: ts2 =>
              match parseF f ts2 with
              | Except.error e => Except.error e
              | Except.ok (b, ts3) =>
                  Except.ok (PyAst.binop BinOpK.powOp a b, ts3)
          | _ => Except.ok (a, ts1)

def parseAtomTr : ℕ → List Tok → Except String (PyAst × List Tok)
  | 0, _ => Except.error ("parser fuel exhausted")
  | f + 1, ts =>
      match parseAtom f ts with
      | Except.error e => Except.error e
      | Except.ok (a, ts1) => parseTrailers f a ts1

def parseTrailers : ℕ → PyAst → List Tok → Except String (PyAst × List Tok)
  | 0, _, _ => Except.error ("parser fuel exhausted")
  | f + 1, a, ts =>
      match ts with
      | Tok.lparenT :: Tok.rparenT :: ts2 => parseTrailers f (PyAst.call a []) ts2
      | Tok.lparenT :: ts1 =>
          match parseArgs f ts1 with
          | Except.error e => Except.error e
          | Except.ok (args, ts2) =>
              match ts2 with
              | Tok.rparenT :: ts3 => parseTrailers f (PyAst.call a args) ts3
              | _ => Except.error ("expected closing parenthesis")
      | Tok.dotT :: Tok.identT nm :: ts1 =>
          parseTrailers f (PyAst.attr a (String.mk nm)) ts1
      | _ => Except.ok (a, ts)

def parseArgs : ℕ → List Tok → Except String (List PyAst × List Tok)
  | 0, _ => Except.error ("parser fuel exhausted")
  | f + 1, ts =>
      match parseE f ts with
      | Except.error e => Except.error e
      | Except.ok (a, ts1) => parseArgsLoop f [a] ts1

def parseArgsLoop : ℕ → List PyAst → List Tok → Except String (List PyAst × List Tok)
  | 0, _, _ => Except.error ("parser fuel exhausted")
  | f + 1, acc, ts =>
      match ts with
      | Tok.commaT :: ts1 =>
          match parseE f ts1 with
          | Except.error e => Except.error e
          | Except.ok (b, ts2) => parseArgsLoop f (acc ++ [b]) ts2
      | _ => Except.ok (acc, ts)

def parseAtom : ℕ → List Tok → Except String (PyAst × List Tok)
  | 0, _ => Except.error ("parser fuel exhausted")
  | f + 1, ts =>
      match ts with
      | Tok.numT false q :: ts1 =>
          Except.ok (PyAst.constant (PyVal.intVal q.num), ts1)
      | Tok.numT true q :: ts1 =>
          Except.ok (PyAst.constant (PyVal.floatVal q), ts1)
      | Tok.strT scs :: ts1 =>
          Except.ok (PyAst.constant (PyVal.strVal (String.mk scs)), ts1)
      | Tok.identT nm :: ts1 => Except.ok (keywordOrName nm, ts1)
      | Tok.lparenT :: ts1 =>
          match parseE f ts1 with
          | Except.error e => Except.error e
          | Except.ok (a, ts2) =>
              match ts2 with
              | Tok.rparenT :: ts3 => Except.ok (a, ts3)
              | _ => Except.error ("expected closing parenthesis")
      | _ => Except.error ("invalid syntax")

end

/-- Parse a complete expression: the whole token list must be consumed,
as eval mode accepts exactly one expression. -/
def pyParseTokens (ts : List Tok) : Except String PyAst :=
  match parseE (4 * ts.length + 8) ts with
  | Except.error e => Except.error e
  | Except.ok (a, rest) =>
      match rest with
      | [] => Except.ok a
      | _ => Except.error ("unexpected tokens after expression")

/-- Model of `ast.parse(expr, mode="eval")` on the fragment: host lexer
then parser, returning the body of the Expression node. -/
def pyParseExpr (s : String) : Except String PyAst :=
  match srcTokenize s.data with
  | Except.error e => Except.error e
  | Except.ok ts => pyParseTokens ts

/-- Model of `expr.replace("^", "**")`: for a single-character pattern,
`str.replace` rewrites every occurrence independently. -/
def replaceCaretL (cs : List Char) : List Char :=
  cs.flatMap (fun c => if c = '^' then ['*', '*'] else [c])

def replaceCaret (s : String) : String :=
  String.mk (replaceCaretL s.data)

/-- The single error type `EvalError` of src/calculator/evaluator.py,
with one constructor per raise site of `safe_eval`; `message` gives the
exact message string the source attaches. -/
inductive EvalError where
  | emptyInput
  | unsupported
  | divByZero
  | invalid (detail : String)
deriving DecidableEq

def EvalError.message : EvalError → String
  | emptyInput => "Empty or invalid expression."
  | unsupported => "Unsupported operation or structure."
  | divByZero => "Division by zero."
  | invalid d => "Invalid expression: " ++ d

/-- Model of `safe_eval`.  A `none` input models Python `None`; `not expr
or not isinstance(expr, str)` fails for `None` and `""`.  Then the caret
rewrite, the host parse, and the whitelist walk run in order, and the
`except` clauses convert every outcome: an `EvalError` from the walk is
re-raised unchanged, a `ZeroDivisionError` becomes "Division by zero.",
and any parser exception becomes "Invalid expression: ...". -/
def safe_eval (input : Option String) : Except EvalError Number :=
  match input with
  | Option.none => Except.error EvalError.emptyInput
  | some s =>
      if s = "" then Except.error EvalError.emptyInput
      else
        match pyParseExpr (replaceCaret s) with
        | Except.error e => Except.error (EvalError.invalid e)
        | Except.ok t =>
            match evalA t with
            | Except.ok v => Except.ok v
            | Except.error EvalExc.unsupported =>
                Except.error EvalError.unsupported
            | Except.error EvalExc.zeroDiv => Except.error EvalError.divByZero

/-- The presentation step of `handle_math` (src/main.py lines 91-93):
`if isinstance(result, float) and result.is_integer(): result =
int(result)`.  A rational is an integer exactly when its denominator is
1; bools are not floats and pass through. -/
def present (v : Number) : Number :=
  match v with
  | Number.floatNum q =>
      if q.den = 1 then Number.intNum q.num else Number.floatNum q
  | x => x

/-! ### Specification-side semantics for the well-formed arithmetic
strings -/

/-- Mathematically correct value of a parsed arithmetic tree, written
from the specification: numeric literals denote themselves; `+ - * /`
denote exact rational arithmetic (`qdiv` is field division by
`qdiv_eq_div`); `^` denotes integer power (`ratPow` is `zpow` by
`ratPow_eq_zpow`), defined when the exponent is an integer and, if
negative, the base is nonzero; unary minus and plus denote negation and
identity.  Division by zero, non-integer exponents (whose exact value is
irrational in general) and non-arithmetic nodes have no
mathematically-defined value here. -/
def directEval : PyAst → Option ℚ
  | PyAst.constant (PyVal.intVal n) => some ((n : ℚ))
  | PyAst.constant (PyVal.floatVal q) => some q
  | PyAst.binop k l r =>
      match directEval l, directEval r with
      | some a, some b =>
          match k with
          | BinOpK.addOp => some (qadd a b)
          | BinOpK.subOp => some (qsub a b)
          | BinOpK.multOp => some (qmul a b)
          | BinOpK.divOp => if b = 0 then Option.none else some (qdiv a b)
          | BinOpK.powOp =>
              if b.den = 1 then
                if a = 0 ∧ b.num < 0 then Option.none
                else some (ratPow a b.num)
              else Option.none
          | _ => Option.none
      | _, _ => Option.none
  | PyAst.unaryop k e =>
      match directEval e with
      | some a =>
          match k with
          | UnOpK.uSub => some (-a)
          | UnOpK.uAdd => some a
          | _ => Option.none
      | Option.none => Option.none
  | _ => Option.none

/-- Parser of the specification grammar: the spec lexer (with `^` as the
power symbol) followed by the shared precedence grammar. -/
def specParseStr (s : String) : Except String PyAst :=
  match specTokenize s.data with
  | Except.error e => Except.error e
  | Except.ok ts => pyParseTokens ts

/-- `specEvalStr s = some q` states that `s` is a well-formed arithmetic
string of the specification — digits, decimal points, `+ - * / ^`,
parentheses and inline whitespace under standard precedence — and that
its mathematically correct value is `q`. -/
def specEvalStr (s : String) : Option ℚ :=
  match specParseStr s with
  | Except.ok t => directEval t
  | Except.error _ => Option.none

/-- Decidable equality of `Except` results, for concrete evaluation of
the pipeline in witnesses. -/
instance {e a : Type} [DecidableEq e] [DecidableEq a] : DecidableEq (Except e a) := fun x y =>
  match x, y with
  | Except.ok v, Except.ok w =>
      if h : v = w then Decidable.isTrue (by rw [h])
      else Decidable.isFalse (by intro hc; cases hc; exact h rfl)
  | Except.error v, Except.error w =>
      if h : v = w then Decidable.isTrue (by rw [h])
      else Decidable.isFalse (by intro hc; cases hc; exact h rfl)
  | Except.ok _, Except.error _ => Decidable.isFalse (by intro hc; cases hc)
  | Except.error _, Except.ok _ => Decidable.isFalse (by intro hc; cases hc)

/-- A one-character string holding the single quote. -/
def sqStr : String := String.mk [quoteChar]

/-- The input string of the specification example: __import__ applied to
the quoted module name os. -/
def importOsStr : String := "__import__(" ++ sqStr ++ "os" ++ sqStr ++ ")"

/-- The input string of the specification example: open applied to the
quoted file name f. -/
def openFStr : String := "open(" ++ sqStr ++ "f" ++ sqStr ++ ")"

/-- An input whose tree contains a non-whitelisted call node but whose
evaluation aborts earlier, in the division of the left summand. -/
def divZeroCallStr : String := "1/0+" ++ openFStr

/-- The tree that the host parser produces for `importOsStr`. -/
def importOsTree : PyAst :=
  PyAst.call (PyAst.name ("__import__")) [PyAst.constant (PyVal.strVal ("os"))]

/-- The tree that the host parser produces for `divZeroCallStr`. -/
def divZeroCallTree : PyAst :=
  PyAst.binop BinOpK.addOp
    (PyAst.binop BinOpK.divOp (PyAst.constant (PyVal.intVal 1))
      (PyAst.constant (PyVal.intVal 0)))
    (PyAst.call (PyAst.name ("open")) [PyAst.constant (PyVal.strVal ("f"))])

/-- The tree that the host parser produces for the string 5/0. -/
def fiveOverZeroTree : PyAst :=
  PyAst.binop BinOpK.divOp (PyAst.constant (PyVal.intVal 5))
    (PyAst.constant (PyVal.intVal 0))

/-! ## List and character-class helper lemmas -/

theorem mem_takeWhile_sat {p : Char → Bool} :
    ∀ cs : List Char, ∀ c ∈ cs.takeWhile p, p c = true := by
  intro cs c hc
  exact List.mem_takeWhile_imp hc

theorem takeWhile_append_not {p : Char → Bool} :
    ∀ a b : List Char, (∀ c ∈ a, p c = true) →
      (∀ c, b.head? = some c → p c = false) →
      (a ++ b).takeWhile p = a := by
  intro a
  induction a with
  | nil =>
      intro b _ hb
      cases b with
      | nil => rfl
      | cons x xs =>
          simp only [List.nil_append, List.takeWhile_cons]
          rw [hb x rfl]
          rfl
  | cons x xs ih =>
      intro b ha hb
      have hx : p x = true := ha x (by simp)
      simp only [List.cons_append, List.takeWhile_cons, hx, if_true]
      rw [ih b (fun c hc => ha c (by simp [hc])) hb]

theorem dropWhile_append_not {p : Char → Bool} :
    ∀ a b : List Char, (∀ c ∈ a, p c = true) →
      (∀ c, b.head? = some c → p c = false) →
      (a ++ b).dropWhile p = b := by
  intro a
  induction a with
  | nil =>
      intro b _ hb
      cases b with
      | nil => rfl
      | cons x xs =>
          simp only [List.nil_append, List.dropWhile_cons]
          rw [hb x rfl]
          rfl
  | cons x xs ih =>
      intro b ha hb
      have hx : p x = true := ha x (by simp)
      simp only [List.cons_append, List.dropWhile_cons, hx, if_true]
      exact ih b (fun c hc => ha c (by simp [hc])) hb

theorem ws_not_digit {c : Char} (h : isPySpace c = true) : c.isDigit = false := by
  simp only [isPySpace, Bool.or_eq_true, decide_eq_true_eq] at h
  rcases h with ((((h | h) | h) | h) | h) | h <;> subst h <;> decide

theorem digit_not_ws {c : Char} (h : c.isDigit = true) : isPySpace c = false := by
  by_cases hw : isPySpace c
  · rw [ws_not_digit hw] at h; exact absurd h (by simp)
  · simpa using hw

theorem opChar_not_digit {c : Char} (h : isOpChar c = true) : c.isDigit = false := by
  simp only [isOpChar, Bool.or_eq_true, decide_eq_true_eq] at h
  rcases h with (((h | h) | h) | h) | h <;> subst h <;> decide

theorem opChar_not_ws {c : Char} (h : isOpChar c = true) : isPySpace c = false := by
  simp only [isOpChar, Bool.or_eq_true, decide_eq_true_eq] at h
  rcases h with (((h | h) | h) | h) | h <;> subst h <;> decide

/-! ## `mathRuns` produces exactly the maximal-run decomposition -/

theorem runsStep_nonmath {c : Char} {p : List (List Char) × Bool}
    (hm : isMathChar c = false) : runsStep c p = (p.1, false) := by
  simp [runsStep, hm]

theorem runsStep_math_true {c : Char} {p : List (List Char) × Bool}
    (hm : isMathChar c = true) (hb : p.2 = true) :
    runsStep c p = ((c :: p.1.headI) :: p.1.tail, true) := by
  simp [runsStep, hm, hb]

theorem runsStep_math_false {c : Char} {p : List (List Char) × Bool}
    (hm : isMathChar c = true) (hb : p.2 = false) :
    runsStep c p = ([c] :: p.1, true) := by
  simp [runsStep, hm, hb]

theorem runsAux_cons (c : Char) (cs : List Char) :
    runsAux (c :: cs) = runsStep c (runsAux cs) := rfl

theorem specRuns_cons_gap {cs : List Char} {rs : List (List Char)} {c : Char}
    (hc : isMathChar c = false) (h : SpecRuns cs rs) : SpecRuns (c :: cs) rs := by
  cases h with
  | gapOnly =>
      rename_i hg
      refine SpecRuns.gapOnly (c :: cs) ?_
      intro x hx
      rcases List.mem_cons.mp hx with hx | hx
      · exact hx ▸ hc
      · exact hg x hx
  | run g r rest rs2 hg hr hrm hmax hrest =>
      have heq : c :: (g ++ (r ++ rest)) = (c :: g) ++ (r ++ rest) := rfl
      rw [heq]
      refine SpecRuns.run (c :: g) r rest rs2 ?_ hr hrm hmax hrest
      intro x hx
      rcases List.mem_cons.mp hx with hx | hx
      · exact hx ▸ hc
      · exact hg x hx

theorem runsAux_false_head {cs : List Char} (h : (runsAux cs).2 = false) :
    ∀ c, cs.head? = some c → isMathChar c = false := by
  intro c hc
  cases cs with
  | nil => simp at hc
  | cons d ds =>
      have hd : d = c := by simpa using hc
      subst hd
      by_cases hm : isMathChar d = true
      · exfalso
        by_cases hb : (runsAux ds).2 = true
        · rw [runsAux_cons, runsStep_math_true hm hb] at h
          simp at h
        · rw [runsAux_cons,
            runsStep_math_false hm (by simpa using hb)] at h
          simp at h
      · simpa using hm

/-- Main invariant of the run-splitting fold: the produced list is a
maximal-run decomposition, and when the flag is set the input starts
with the first produced run. -/
theorem runsAux_spec : ∀ cs : List Char,
    SpecRuns cs (mathRuns cs) ∧
    ((runsAux cs).2 = true →
      ∃ r rest rs2, (runsAux cs).1 = r :: rs2 ∧ cs = r ++ rest ∧ r ≠ [] ∧
        (∀ c ∈ r, isMathChar c = true) ∧
        (∀ c, rest.head? = some c → isMathChar c = false) ∧
        SpecRuns rest rs2) := by
  intro cs
  induction cs with
  | nil =>
      refine ⟨SpecRuns.gapOnly [] (by intro c hc; simp at hc), ?_⟩
      intro h
      simp [runsAux] at h
  | cons c cs ih =>
      obtain ⟨ih1, ih2⟩ := ih
      by_cases hm : isMathChar c = true
      · by_cases hb : (runsAux cs).2 = true
        · obtain ⟨r, rest, rs2, h1, h2, h3, h4, h5, h6⟩ := ih2 hb
          have hstep : runsAux (c :: cs) = ((c :: r) :: rs2, true) := by
            rw [runsAux_cons, runsStep_math_true hm hb, h1]
            simp
          have hfst : mathRuns (c :: cs) = (c :: r) :: rs2 := by
            rw [mathRuns, hstep]
          have hallm : ∀ x ∈ c :: r, isMathChar x = true := by
            intro x hx
            rcases List.mem_cons.mp hx with hx | hx
            · exact hx ▸ hm
            · exact h4 x hx
          constructor
          · rw [hfst]
            have heq : c :: cs = [] ++ ((c :: r) ++ rest) := by
              rw [h2]; rfl
            rw [heq]
            exact SpecRuns.run [] (c :: r) rest rs2
              (by intro x hx; simp at hx) (by simp) hallm h5 h6
          · intro _
            refine ⟨c :: r, rest, rs2, ?_, by rw [h2]; rfl, by simp,
              hallm, h5, h6⟩
            rw [hstep]
        · have hbf : (runsAux cs).2 = false := by simpa using hb
          have hstep : runsAux (c :: cs) = ([c] :: (runsAux cs).1, true) := by
            rw [runsAux_cons, runsStep_math_false hm hbf]
          have hfst : mathRuns (c :: cs) = [c] :: mathRuns cs := by
            rw [mathRuns, hstep]; rfl
          have hhead : ∀ x, cs.head? = some x → isMathChar x = false :=
            runsAux_false_head hbf
          constructor
          · rw [hfst]
            have heq : c :: cs = [] ++ ([c] ++ cs) := by rfl
            rw [heq]
            exact SpecRuns.run [] [c] cs (mathRuns cs)
              (by intro x hx; simp at hx) (by simp)
              (by intro x hx; simp at hx; exact hx ▸ hm)
              hhead ih1
          · intro _
            refine ⟨[c], cs, mathRuns cs, ?_, rfl, by simp,
              by intro x hx; simp at hx; exact hx ▸ hm, hhead, ih1⟩
            rw [hstep]; rfl
      · have hmf : isMathChar c = false := by simpa using hm
        have hstep : runsAux (c :: cs) = ((runsAux cs).1, false) := by
          rw [runsAux_cons, runsStep_nonmath hmf]
        have hfst : mathRuns (c :: cs) = mathRuns cs := by
          rw [mathRuns, hstep]; rfl
        constructor
        · rw [hfst]
          exact specRuns_cons_gap hmf ih1
        · intro h
          rw [hstep] at h
          simp at h

theorem specRuns_mathRuns (cs : List Char) : SpecRuns cs (mathRuns cs) :=
  (runsAux_spec cs).1

/-! ## Properties of the longest-run selection and the whitespace cleanup -/

theorem foldl_max_spec :
    ∀ (l : List (List Char)) (acc : List Char),
      (l.foldl (fun best x => if best.length < x.length then x else best) acc
          = acc ∧ ∀ x ∈ l, x.length ≤ acc.length) ∨
      (∃ pre x post, l = pre ++ x :: post ∧
        l.foldl (fun best x => if best.length < x.length then x else best) acc
          = x ∧
        acc.length < x.length ∧
        (∀ y ∈ pre, y.length < x.length) ∧
        (∀ y ∈ post, y.length ≤ x.length)) := by
  intro l
  induction l with
  | nil => intro acc; left; exact ⟨rfl, by intro x hx; simp at hx⟩
  | cons z l ih =>
      intro acc
      by_cases hz : acc.length < z.length
      · rcases ih z with ⟨h1, h2⟩ | ⟨pre, x, post, h1, h2, h3, h4, h5⟩
        · right
          refine ⟨[], z, l, by simp, ?_, hz, by intro y hy; simp at hy, h2⟩
          simp only [List.foldl_cons, if_pos hz]
          exact h1
        · right
          refine ⟨z :: pre, x, post, by simp [h1], ?_, lt_trans hz h3, ?_, h5⟩
          · simp only [List.foldl_cons, if_pos hz]
            exact h2
          · intro y hy
            rcases List.mem_cons.mp hy with hy | hy
            · exact hy ▸ h3
            · exact h4 y hy
      · have hz2 : z.length ≤ acc.length := by omega
        rcases ih acc with ⟨h1, h2⟩ | ⟨pre, x, post, h1, h2, h3, h4, h5⟩
        · left
          constructor
          · simp only [List.foldl_cons, if_neg hz]
            exact h1
          · intro x hx
            rcases List.mem_cons.mp hx with hx | hx
            · exact hx ▸ hz2
            · exact h2 x hx
        · right
          refine ⟨z :: pre, x, post, by simp [h1], ?_, h3, ?_, h5⟩
          · simp only [List.foldl_cons, if_neg hz]
            exact h2
          · intro y hy
            rcases List.mem_cons.mp hy with hy | hy
            · subst hy; omega
            · exact h4 y hy

theorem pyMaxByLen_spec {rs : List (List Char)} {r : List Char}
    (h : pyMaxByLen rs = some r) : FirstLongest rs r := by
  cases rs with
  | nil => simp [pyMaxByLen] at h
  | cons r0 l =>
      have hr : l.foldl (fun best x => if best.length < x.length then x else best) r0
          = r := by simpa [pyMaxByLen] using h
      rcases foldl_max_spec l r0 with ⟨h1, h2⟩ | ⟨pre, x, post, h1, h2, h3, h4, h5⟩
      · have : r0 = r := by rw [← hr, h1]
        subst this
        refine ⟨[], l, by simp, by intro y hy; simp at hy, ?_⟩
        intro x hx
        rcases List.mem_cons.mp hx with hx | hx
        · exact hx ▸ le_refl _
        · exact h2 x hx
      · have hx : x = r := by rw [← hr, h2]
        subst hx
        refine ⟨r0 :: pre, post, by simp [h1], ?_, ?_⟩
        · intro y hy
          rcases List.mem_cons.mp hy with hy | hy
          · exact hy ▸ h3
          · exact h4 y hy
        · intro y hy
          rcases List.mem_cons.mp hy with hy | hy
          · subst hy; omega
          · rw [h1] at hy
            rcases List.mem_append.mp hy with hy | hy
            · exact le_of_lt (h4 y hy)
            · rcases List.mem_cons.mp hy with hy | hy
              · exact hy ▸ le_refl _
              · exact h5 y hy

theorem stripAllWs_dropWhile (cs : List Char) :
    stripAllWs (cs.dropWhile isPySpace) = stripAllWs cs := by
  induction cs with
  | nil => rfl
  | cons c cs ih =>
      by_cases hc : isPySpace c = true
      · rw [List.dropWhile_cons]
        simp only [hc, if_true]
        rw [ih]
        simp [stripAllWs, hc]
      · rw [List.dropWhile_cons]
        simp only [hc]
        rfl

theorem stripAllWs_reverse (cs : List Char) :
    stripAllWs cs.reverse = (stripAllWs cs).reverse := by
  simp [stripAllWs, List.filter_reverse]

theorem stripAllWs_pyStrip (cs : List Char) :
    stripAllWs (pyStrip cs) = stripAllWs cs := by
  rw [pyStrip, stripAllWs_reverse, stripAllWs_dropWhile, stripAllWs_reverse,
    List.reverse_reverse, stripAllWs_dropWhile]

/-! ## The loose regex search agrees with its declarative reading -/

theorem looseAt_of_parts {d1 w1 w2 d2 post : List Char} {o : Char}
    (hd1 : d1 ≠ []) (hd1d : ∀ c ∈ d1, c.isDigit = true)
    (hw1 : ∀ c ∈ w1, isPySpace c = true) (ho : isOpChar o = true)
    (hw2 : ∀ c ∈ w2, isPySpace c = true)
    (hd2 : d2 ≠ []) (hd2d : ∀ c ∈ d2, c.isDigit = true) :
    looseAt (d1 ++ (w1 ++ o :: (w2 ++ (d2 ++ post)))) = true := by
  obtain ⟨x1, d1t, rfl⟩ := List.exists_cons_of_ne_nil hd1
  obtain ⟨x2, d2t, rfl⟩ := List.exists_cons_of_ne_nil hd2
  have h1 : ((x1 :: d1t) ++ (w1 ++ o :: (w2 ++ ((x2 :: d2t) ++ post)))).takeWhile
      Char.isDigit = x1 :: d1t := by
    refine takeWhile_append_not _ _ hd1d ?_
    intro c hc
    cases w1 with
    | nil =>
        have hco : c = o := (show o = c by simpa using hc).symm
        exact hco ▸ opChar_not_digit ho
    | cons y ys =>
        have hcy : c = y := (show y = c by simpa using hc).symm
        exact hcy ▸ ws_not_digit (hw1 y (by simp))
  have h2 : ((x1 :: d1t) ++ (w1 ++ o :: (w2 ++ ((x2 :: d2t) ++ post)))).dropWhile
      Char.isDigit = w1 ++ o :: (w2 ++ ((x2 :: d2t) ++ post)) := by
    refine dropWhile_append_not _ _ hd1d ?_
    intro c hc
    cases w1 with
    | nil =>
        have hco : c = o := (show o = c by simpa using hc).symm
        exact hco ▸ opChar_not_digit ho
    | cons y ys =>
        have hcy : c = y := (show y = c by simpa using hc).symm
        exact hcy ▸ ws_not_digit (hw1 y (by simp))
  have h3 : (w1 ++ o :: (w2 ++ ((x2 :: d2t) ++ post))).dropWhile isPySpace
      = o :: (w2 ++ ((x2 :: d2t) ++ post)) := by
    refine dropWhile_append_not _ _ hw1 ?_
    intro c hc
    have hco : c = o := (show o = c by simpa using hc).symm
    exact hco ▸ opChar_not_ws ho
  have h4 : (w2 ++ ((x2 :: d2t) ++ post)).dropWhile isPySpace
      = (x2 :: d2t) ++ post := by
    refine dropWhile_append_not _ _ hw2 ?_
    intro c hc
    have hcx : c = x2 := (show x2 = c by simpa using hc).symm
    exact hcx ▸ digit_not_ws (hd2d x2 (by simp))
  have hx2 : x2.isDigit = true := hd2d x2 (by simp)
  simp only [looseAt]
  simp only [h1, h2, h3, h4]
  simp [List.takeWhile_cons, ho, hx2]

theorem looseAt_parts {cs : List Char} (h : looseAt cs = true) :
    ∃ d1 w1 o w2 d2 post,
      cs = d1 ++ (w1 ++ o :: (w2 ++ (d2 ++ post))) ∧
      d1 ≠ [] ∧ (∀ c ∈ d1, c.isDigit = true) ∧
      (∀ c ∈ w1, isPySpace c = true) ∧ isOpChar o = true ∧
      (∀ c ∈ w2, isPySpace c = true) ∧
      d2 ≠ [] ∧ (∀ c ∈ d2, c.isDigit = true) := by
  simp only [looseAt] at h
  by_cases hni : (cs.takeWhile Char.isDigit).isEmpty
  · rw [if_pos hni] at h
    simp at h
  · rw [if_neg hni] at h
    rcases hscrut : (cs.dropWhile Char.isDigit).dropWhile isPySpace with _ | ⟨o, r⟩
    · rw [hscrut] at h
      simp at h
    · rw [hscrut] at h
      by_cases ho : isOpChar o = true
      · simp only [ho, if_true] at h
        have hd2ne : (r.dropWhile isPySpace).takeWhile Char.isDigit ≠ [] := by
          intro hcon
          rw [hcon] at h
          simp at h
        refine ⟨cs.takeWhile Char.isDigit, (cs.dropWhile Char.isDigit).takeWhile isPySpace,
          o, r.takeWhile isPySpace, (r.dropWhile isPySpace).takeWhile Char.isDigit,
          (r.dropWhile isPySpace).dropWhile Char.isDigit, ?_, ?_, ?_, ?_, ho, ?_, hd2ne, ?_⟩
        · conv_lhs => rw [← List.takeWhile_append_dropWhile Char.isDigit cs]
          congr 1
          conv_lhs =>
            rw [← List.takeWhile_append_dropWhile isPySpace (cs.dropWhile Char.isDigit)]
          rw [hscrut]
          congr 1
          congr 1
          conv_lhs => rw [← List.takeWhile_append_dropWhile isPySpace r]
          congr 1
          conv_lhs =>
            rw [← List.takeWhile_append_dropWhile Char.isDigit (r.dropWhile isPySpace)]
        · intro hcon
          rw [hcon] at hni
          simp at hni
        · exact mem_takeWhile_sat cs
        · exact mem_takeWhile_sat _
        · exact mem_takeWhile_sat _
        · exact mem_takeWhile_sat _
      · have hof : isOpChar o = false := by simpa using ho
        simp [hof] at h

theorem looseSearch_iff (s : String) : looseSearch s.data = true ↔ LooseHeur s := by
  constructor
  · intro h
    rw [looseSearch, List.any_eq_true] at h
    obtain ⟨tail, htail, hat⟩ := h
    obtain ⟨pre, hpre⟩ := (List.mem_tails tail s.data).mp htail
    obtain ⟨d1, w1, o, w2, d2, post, heq, p1, p2, p3, p4, p5, p6, p7⟩ :=
      looseAt_parts hat
    refine ⟨pre, d1, w1, o, w2, d2, post, ?_, p1, p2, p3, p4, p5, p6, p7⟩
    rw [← hpre, heq]
    simp [List.append_assoc]
  · intro h
    obtain ⟨pre, d1, w1, o, w2, d2, post, heq, p1, p2, p3, p4, p5, p6, p7⟩ := h
    rw [looseSearch, List.any_eq_true]
    refine ⟨d1 ++ (w1 ++ o :: (w2 ++ (d2 ++ post))), ?_,
      looseAt_of_parts p1 p2 p3 p4 p5 p6 p7⟩
    rw [List.mem_tails]
    refine ⟨pre, ?_⟩
    rw [heq]
    simp [List.append_assoc]

/-! ## Remaining supporting lemmas for the extractor claims -/

theorem string_data_nil {s : String} (h : s.data = []) : s = "" := by
  cases s with
  | mk d =>
      have hd : d = [] := h
      subst hd
      rfl

theorem pyMaxByLen_eq_none {rs : List (List Char)}
    (h : pyMaxByLen rs = Option.none) : rs = [] := by
  cases rs with
  | nil => rfl
  | cons r l => simp [pyMaxByLen] at h

theorem specRuns_members {cs : List Char} {rs : List (List Char)}
    (h : SpecRuns cs rs) : ∀ r ∈ rs, r ≠ [] ∧ ∀ c ∈ r, isMathChar c = true := by
  induction h with
  | gapOnly g hg => intro r hr; simp at hr
  | run g r rest rs2 hg hr hrm hmax hrest ih =>
      intro x hx
      rcases List.mem_cons.mp hx with hx | hx
      · exact hx ▸ ⟨hr, hrm⟩
      · exact ih x hx

theorem runsAux_all_math : ∀ cs : List Char, cs ≠ [] →
    (∀ c ∈ cs, isMathChar c = true) → runsAux cs = ([cs], true) := by
  intro cs
  induction cs with
  | nil => intro h; exact absurd rfl h
  | cons c cs ih =>
      intro _ hall
      have hm : isMathChar c = true := hall c (by simp)
      cases cs with
      | nil =>
          rw [runsAux_cons, runsAux, List.foldr_nil, runsStep_math_false hm rfl]
      | cons d ds =>
          have hrec : runsAux (d :: ds) = ([d :: ds], true) :=
            ih (by simp) (fun x hx => hall x (by simp [hx]))
          rw [runsAux_cons, hrec, runsStep_math_true hm rfl]
          simp [List.headI]

theorem mathChar_split {c : Char} (hm : isMathChar c = true)
    (hw : isPySpace c = false) :
    c.isDigit = true ∨ c = '.' ∨ c = '+' ∨ c = '-' ∨ c = '*' ∨ c = '/' ∨
      c = '^' ∨ c = '(' ∨ c = ')' := by
  simp only [isMathChar, Bool.or_eq_true, decide_eq_true_eq, hw,
    Bool.false_eq_true, or_false] at hm
  tauto

/-! ## Claims C6-C9: the extractor and the heuristics -/

/-- Claim C6: for every input text, `extract_expression` finds every
maximal contiguous run of characters from the math class, selects the
longest run with ties broken in favour of the first occurrence, strips
all whitespace from it and returns the result, returning null when no
run exists or the cleaned result is empty; in particular on
"what is 2 + 2 please" it returns "2+2". -/
theorem claim_C6 :
    extract_expression (some ("what is 2 + 2 please")) = some ("2+2") ∧
    (∀ s e, extract_expression (some s) = some e →
      ∃ rs r, SpecRuns s.data rs ∧ FirstLongest rs r ∧
        e.data = stripAllWs r ∧ e.data ≠ []) ∧
    (∀ s, extract_expression (some s) = Option.none →
      SpecRuns s.data [] ∨
      ∃ rs r, SpecRuns s.data rs ∧ FirstLongest rs r ∧ stripAllWs r = []) ∧
    extract_expression Option.none = Option.none := by
  refine ⟨by decide, ?_, ?_, rfl⟩
  · intro s e h
    by_cases hsd : s.data = []
    · simp [extract_expression, hsd] at h
    · rcases hmax : pyMaxByLen (mathRuns s.data) with _ | r
      · simp [extract_expression, hsd, hmax] at h
      · by_cases hemp : stripAllWs (pyStrip r) = []
        · simp [extract_expression, hsd, hmax, hemp] at h
        · have he : e = String.mk (stripAllWs (pyStrip r)) := by
            simp [extract_expression, hsd, hmax, hemp] at h
            exact h.symm
          refine ⟨mathRuns s.data, r, specRuns_mathRuns s.data,
            pyMaxByLen_spec hmax, ?_, ?_⟩
          · rw [he, stripAllWs_pyStrip]
          · rw [he]
            simpa [stripAllWs_pyStrip] using hemp
  · intro s h
    by_cases hsd : s.data = []
    · left
      rw [hsd]
      exact SpecRuns.gapOnly [] (by intro c hc; simp at hc)
    · rcases hmax : pyMaxByLen (mathRuns s.data) with _ | r
      · left
        have : mathRuns s.data = [] := pyMaxByLen_eq_none hmax
        exact this ▸ specRuns_mathRuns s.data
      · by_cases hemp : stripAllWs (pyStrip r) = []
        · right
          refine ⟨mathRuns s.data, r, specRuns_mathRuns s.data,
            pyMaxByLen_spec hmax, ?_⟩
          rw [← stripAllWs_pyStrip]
          exact hemp
        · simp [extract_expression, hsd, hmax, hemp] at h

theorem claim_C6_witness :
    ∃ rs r, SpecRuns ("what is 2 + 2 please").data rs ∧ FirstLongest rs r ∧
      ("2+2").data = stripAllWs r ∧ ("2+2").data ≠ [] :=
  claim_C6.2.1 ("what is 2 + 2 please") ("2+2") (by decide)

/-- Claim C7: `is_math_question` returns true exactly when the strict
heuristic holds (every character in the math class, a digit present, an
operator present) or the loose heuristic holds (digit sequence, optional
whitespace, an operator, optional whitespace, digit sequence somewhere in
the text), and returns false for empty or null input; in particular it
accepts "what is 2+2" and rejects "hello world". -/
theorem claim_C7 :
    (∀ input, is_math_question input = true ↔
      ∃ s, input = some s ∧ s.data ≠ [] ∧ (StrictHeur s ∨ LooseHeur s)) ∧
    is_math_question (some ("what is 2+2")) = true ∧
    is_math_question (some ("hello world")) = false ∧
    is_math_question Option.none = false ∧
    is_math_question (some ("")) = false := by
  refine ⟨?_, by decide, by decide, rfl, by decide⟩
  intro input
  cases input with
  | none =>
      simp [is_math_question]
  | some s =>
      by_cases hsd : s.data = []
      · simp [is_math_question, hsd]
      · have hunf : is_math_question (some s) =
            ((s.data.all isMathChar && s.data.any Char.isDigit &&
              s.data.any isOpChar) || looseSearch s.data) := by
          simp only [is_math_question]
          rw [if_neg hsd]
        rw [hunf]
        constructor
        · intro h
          refine ⟨s, rfl, hsd, ?_⟩
          simp only [Bool.or_eq_true, Bool.and_eq_true] at h
          rcases h with ⟨⟨h1, h2⟩, h3⟩ | h
          · exact Or.inl ⟨List.all_eq_true.mp h1, List.any_eq_true.mp h2,
              List.any_eq_true.mp h3⟩
          · exact Or.inr ((looseSearch_iff s).mp h)
        · rintro ⟨s2, hs2, hsd2, hsl⟩
          have hss : s2 = s := by injection hs2 with h2; exact h2.symm
          subst hss
          simp only [Bool.or_eq_true, Bool.and_eq_true]
          rcases hsl with ⟨h1, h2, h3⟩ | h
          · exact Or.inl ⟨⟨List.all_eq_true.mpr h1, List.any_eq_true.mpr h2⟩,
              List.any_eq_true.mpr h3⟩
          · exact Or.inr ((looseSearch_iff s2).mpr h)

theorem claim_C7_witness :
    ∃ s, some ("what is 2+2") = some s ∧ s.data ≠ [] ∧
      (StrictHeur s ∨ LooseHeur s) :=
  (claim_C7.1 (some ("what is 2+2"))).mp (by decide)

/-- Claim C8: on every non-empty string satisfying the strict heuristic of
`is_math_question` (all characters in the math class, a digit present, an
operator present), `extract_expression` returns a non-null result: the
whole text is one maximal run, so extraction cannot fail. -/
theorem claim_C8 :
    ∀ s : String, s ≠ "" →
      (∀ c ∈ s.data, isMathChar c = true) →
      (∃ c ∈ s.data, c.isDigit = true) →
      (∃ c ∈ s.data, isOpChar c = true) →
      ∃ e, extract_expression (some s) = some e := by
  intro s hne hall hdig _
  have hsd : s.data ≠ [] := fun h => hne (string_data_nil h)
  have hruns : mathRuns s.data = [s.data] := by
    rw [mathRuns, runsAux_all_math s.data hsd hall]
  have hmax : pyMaxByLen (mathRuns s.data) = some s.data := by
    rw [hruns]; rfl
  obtain ⟨d, hdm, hdd⟩ := hdig
  have hdmem : d ∈ stripAllWs s.data :=
    List.mem_filter.mpr ⟨hdm, by simp [digit_not_ws hdd]⟩
  have hemp : stripAllWs (pyStrip s.data) ≠ [] := by
    rw [stripAllWs_pyStrip]
    exact List.ne_nil_of_mem hdmem
  refine ⟨String.mk (stripAllWs (pyStrip s.data)), ?_⟩
  simp [extract_expression, hsd, hmax, hemp]

theorem claim_C8_witness : ∃ e, extract_expression (some ("2+2")) = some e :=
  claim_C8 ("2+2") (by decide) (by decide) (by decide) (by decide)

/-- Claim C9: whenever `extract_expression` returns a non-null string, that
string is non-empty, contains no whitespace, and every character is a
digit or one of the characters . + - * / ^ ( ). -/
theorem claim_C9 :
    ∀ s e, extract_expression (some s) = some e →
      e.data ≠ [] ∧
      ∀ c ∈ e.data, isPySpace c = false ∧
        (c.isDigit = true ∨ c = '.' ∨ c = '+' ∨ c = '-' ∨ c = '*' ∨
          c = '/' ∨ c = '^' ∨ c = '(' ∨ c = ')') := by
  intro s e h
  obtain ⟨rs, r, hruns, hfl, he, hne⟩ := claim_C6.2.1 s e h
  refine ⟨hne, ?_⟩
  intro c hc
  rw [he] at hc
  have hcr : c ∈ r ∧ isPySpace c = false := by
    have := List.mem_filter.mp hc
    exact ⟨this.1, by simpa using this.2⟩
  obtain ⟨pre, post, hsplit, _, _⟩ := hfl
  have hrmem : r ∈ rs := by rw [hsplit]; simp
  have hmath : isMathChar c = true :=
    (specRuns_members hruns r hrmem).2 c hcr.1
  exact ⟨hcr.2, mathChar_split hmath hcr.2⟩

theorem claim_C9_witness :
    ("2+2").data ≠ [] ∧
    ∀ c ∈ ("2+2").data, isPySpace c = false ∧
      (c.isDigit = true ∨ c = '.' ∨ c = '+' ∨ c = '-' ∨ c = '*' ∨
        c = '/' ∨ c = '^' ∨ c = '(' ∨ c = ')') :=
  claim_C9 ("what is 2 + 2 please") ("2+2") (by decide)

/-! ## The executable rational operations are the field operations -/

theorem qadd_eq_add (a b : ℚ) : qadd a b = a + b := by
  rw [qadd, Rat.mkRat_eq_div]
  have ha : ((a.den : ℚ)) ≠ 0 := by
    exact_mod_cast a.den_ne_zero
  have hb : ((b.den : ℚ)) ≠ 0 := by
    exact_mod_cast b.den_ne_zero
  conv_rhs => rw [← Rat.num_div_den a, ← Rat.num_div_den b]
  rw [div_add_div _ _ ha hb]
  push_cast
  ring_nf

theorem qsub_eq_sub (a b : ℚ) : qsub a b = a - b := by
  rw [qsub, Rat.mkRat_eq_div]
  have ha : ((a.den : ℚ)) ≠ 0 := by
    exact_mod_cast a.den_ne_zero
  have hb : ((b.den : ℚ)) ≠ 0 := by
    exact_mod_cast b.den_ne_zero
  conv_rhs => rw [← Rat.num_div_den a, ← Rat.num_div_den b]
  rw [div_sub_div _ _ ha hb]
  push_cast
  ring_nf

theorem qmul_eq_mul (a b : ℚ) : qmul a b = a * b := by
  rw [qmul, Rat.mkRat_eq_div]
  conv_rhs => rw [← Rat.num_div_den a, ← Rat.num_div_den b]
  rw [div_mul_div_comm]
  push_cast
  ring_nf

theorem qpowNat_eq_pow (q : ℚ) : ∀ n : ℕ, qpowNat q n = q ^ n := by
  intro n
  induction n with
  | zero => simp [qpowNat]
  | succ n ih => rw [qpowNat, qmul_eq_mul, ih, pow_succ]

theorem rat_mul_den (a : ℚ) : a * (a.den : ℚ) = (a.num : ℚ) := by
  have ha : ((a.den : ℚ)) ≠ 0 := by
    exact_mod_cast a.den_ne_zero
  nth_rewrite 1 [← Rat.num_div_den a]
  exact div_mul_cancel₀ _ ha

theorem qdiv_eq_div (a b : ℚ) : qdiv a b = a / b := by
  by_cases hb : b = 0
  · subst hb
    rw [qdiv]
    norm_num
  · have hbn : b.num ≠ 0 := Rat.num_ne_zero.mpr hb
    have ha : ((a.den : ℚ)) ≠ 0 := by
      exact_mod_cast a.den_ne_zero
    have hbq : ((b.num : ℚ)) ≠ 0 := by
      exact_mod_cast hbn
    have hY : ((a.den * b.num : ℤ) : ℚ) ≠ 0 := by
      push_cast
      exact mul_ne_zero ha hbq
    have key : a / b = ((a.num * (b.den : ℤ) : ℤ) : ℚ) / ((a.den * b.num : ℤ) : ℚ) := by
      rw [div_eq_div_iff hb hY]
      push_cast
      calc a * ((a.den : ℚ) * (b.num : ℚ))
          = (a * (a.den : ℚ)) * (b.num : ℚ) := by ring
        _ = (a.num : ℚ) * (b.num : ℚ) := by rw [rat_mul_den]
        _ = (a.num : ℚ) * (b * (b.den : ℚ)) := by rw [rat_mul_den]
        _ = (a.num : ℚ) * (b.den : ℚ) * b := by ring
    rcases le_or_lt 0 b.num with hpos | hneg
    · rw [qdiv, if_pos hpos, Rat.mkRat_eq_div, key]
      have h1 : ((b.num.toNat : ℕ) : ℚ) = ((b.num : ℤ) : ℚ) := by
        exact_mod_cast congrArg (fun z : ℤ => (z : ℚ)) (Int.toNat_of_nonneg hpos)
      push_cast
      rw [h1]
    · rw [qdiv, if_neg (by omega), Rat.mkRat_eq_div, key]
      have h1 : (((-b.num).toNat : ℕ) : ℚ) = ((-b.num : ℤ) : ℚ) := by
        exact_mod_cast congrArg (fun z : ℤ => (z : ℚ))
          (Int.toNat_of_nonneg (by omega : (0 : ℤ) ≤ -b.num))
      push_cast
      push_cast at h1
      rw [h1, mul_neg, neg_div_neg_eq]

theorem ratPow_eq_zpow (q : ℚ) (e : ℤ) : ratPow q e = q ^ e := by
  rw [ratPow]
  rcases le_or_lt 0 e with hpos | hneg
  · rw [if_pos hpos, qpowNat_eq_pow]
    rw [← zpow_natCast, Int.toNat_of_nonneg hpos]
  · rw [if_neg (by omega), qpowNat_eq_pow, qdiv_eq_div]
    rw [← zpow_natCast, Int.toNat_of_nonneg (by omega : (0 : ℤ) ≤ -e)]
    rw [one_div, ← zpow_neg, neg_neg]

/-! ## The whitelist walk computes the mathematically correct value -/

theorem toRat_of_not_float {v : Number} (h : v.isFloat = false) :
    v.toRat = ((v.toZ : ℤ) : ℚ) := by
  cases v with
  | intNum n => rfl
  | boolNum b => cases b <;> simp [Number.toRat, Number.toZ]
  | floatNum q => simp [Number.isFloat] at h

theorem toRat_add (a b : Number) : (a.add b).toRat = a.toRat + b.toRat := by
  by_cases hf : (a.isFloat || b.isFloat) = true
  · simp [Number.add, hf, Number.toRat, qadd_eq_add]
  · have hff : a.isFloat = false ∧ b.isFloat = false := by simpa using hf
    rw [Number.add, if_neg (by simp [hf])]
    rw [Number.toRat]
    push_cast
    rw [toRat_of_not_float hff.1, toRat_of_not_float hff.2]

theorem toRat_sub (a b : Number) : (a.sub b).toRat = a.toRat - b.toRat := by
  by_cases hf : (a.isFloat || b.isFloat) = true
  · simp [Number.sub, hf, Number.toRat, qsub_eq_sub]
  · have hff : a.isFloat = false ∧ b.isFloat = false := by simpa using hf
    rw [Number.sub, if_neg (by simp [hf])]
    rw [Number.toRat]
    push_cast
    rw [toRat_of_not_float hff.1, toRat_of_not_float hff.2]

theorem toRat_mul (a b : Number) : (a.mul b).toRat = a.toRat * b.toRat := by
  by_cases hf : (a.isFloat || b.isFloat) = true
  · simp [Number.mul, hf, Number.toRat, qmul_eq_mul]
  · have hff : a.isFloat = false ∧ b.isFloat = false := by simpa using hf
    rw [Number.mul, if_neg (by simp [hf])]
    rw [Number.toRat]
    push_cast
    rw [toRat_of_not_float hff.1, toRat_of_not_float hff.2]

theorem toRat_neg (a : Number) : a.negN.toRat = -(a.toRat) := by
  cases a with
  | floatNum q => rfl
  | intNum n => simp [Number.negN, Number.toRat, Number.toZ]
  | boolNum b => cases b <;> simp [Number.negN, Number.toRat, Number.toZ]

theorem toRat_pos (a : Number) : a.posN.toRat = a.toRat := by
  cases a with
  | floatNum q => rfl
  | intNum n => rfl
  | boolNum b => cases b <;> simp [Number.posN, Number.toRat, Number.toZ]

theorem div_agree {va vb : Number} {a b q : ℚ}
    (hva : va.toRat = a) (hvb : vb.toRat = b)
    (h : (if b = 0 then Option.none else some (qdiv a b)) = some q) :
    ∃ v, va.div vb = Except.ok v ∧ v.toRat = q := by
  by_cases hb0 : b = 0
  · simp [hb0] at h
  · rw [if_neg hb0] at h
    have hq : qdiv a b = q := by injection h
    refine ⟨Number.floatNum (qdiv va.toRat vb.toRat), ?_, ?_⟩
    · rw [Number.div, if_neg (by rw [hvb]; exact hb0)]
    · show qdiv va.toRat vb.toRat = q
      rw [hva, hvb]
      exact hq

theorem pow_agree {va vb : Number} {a b q : ℚ}
    (hva : va.toRat = a) (hvb : vb.toRat = b)
    (h : (if b.den = 1 then
            if a = 0 ∧ b.num < 0 then Option.none else some (ratPow a b.num)
          else Option.none) = some q) :
    ∃ v, va.pow vb = Except.ok v ∧ v.toRat = q := by
  by_cases hden : b.den = 1
  · rw [if_pos hden] at h
    by_cases hg : a = 0 ∧ b.num < 0
    · simp [hg] at h
    · rw [if_neg hg] at h
      have hq : ratPow a b.num = q := by injection h
      by_cases hbf : vb.isFloat = true
      · refine ⟨Number.floatNum (ratPow va.toRat vb.toRat.num), ?_, ?_⟩
        · rw [Number.pow, if_pos hbf, if_pos (by rw [hvb]; exact hden),
            if_neg (by rw [hva, hvb]; exact hg)]
        · show ratPow va.toRat vb.toRat.num = q
          rw [hva, hvb]
          exact hq
      · have hbf2 : vb.isFloat = false := by simpa using hbf
        have hbe : b = ((vb.toZ : ℤ) : ℚ) := by
          rw [← hvb, toRat_of_not_float hbf2]
        have hbnum : b.num = vb.toZ := by rw [hbe, Rat.intCast_num]
        by_cases haf : va.isFloat = true
        · refine ⟨Number.floatNum (ratPow va.toRat vb.toZ), ?_, ?_⟩
          · rw [Number.pow, if_neg (by simp [hbf2]), if_pos haf,
              if_neg (by rw [hva, ← hbnum]; exact hg)]
          · show ratPow va.toRat vb.toZ = q
            rw [hva, ← hbnum]
            exact hq
        · have haf2 : va.isFloat = false := by simpa using haf
          have hae : a = ((va.toZ : ℤ) : ℚ) := by
            rw [← hva, toRat_of_not_float haf2]
          rcases le_or_lt 0 vb.toZ with hn | hn
          · refine ⟨Number.intNum (va.toZ ^ vb.toZ.toNat), ?_, ?_⟩
            · rw [Number.pow, if_neg (by simp [hbf2]), if_neg (by simp [haf2]),
                if_pos hn]
            · show ((va.toZ ^ vb.toZ.toNat : ℤ) : ℚ) = q
              rw [← hq, ratPow, hbnum, if_pos hn, qpowNat_eq_pow, hae]
              push_cast
              ring
          · have hane : a ≠ 0 := by
              intro hcon
              refine hg ⟨hcon, ?_⟩
              rw [hbnum]
              exact hn
            have hzne : va.toZ ≠ 0 := by
              intro hcon
              rw [hcon] at hae
              exact hane (by exact_mod_cast hae)
            refine ⟨Number.floatNum (ratPow va.toRat vb.toZ), ?_, ?_⟩
            · rw [Number.pow, if_neg (by simp [hbf2]), if_neg (by simp [haf2]),
                if_neg (by omega), if_neg hzne]
            · show ratPow va.toRat vb.toZ = q
              rw [hva, ← hbnum]
              exact hq
  · rw [if_neg hden] at h
    simp at h

/-- Agreement of the whitelist walk with the specification semantics:
whenever a tree has a mathematically-defined exact value, the walk
returns a value with exactly that rational meaning. -/
theorem evalAgree : ∀ (t : PyAst) (q : ℚ), directEval t = some q →
    ∃ v, evalA t = Except.ok v ∧ v.toRat = q
  | PyAst.constant (PyVal.intVal n), q, h => by
      refine ⟨Number.intNum n, rfl, ?_⟩
      have hnq : ((n : ℤ) : ℚ) = q := by
        rw [directEval] at h
        injection h
      exact hnq
  | PyAst.constant (PyVal.floatVal x), q, h => by
      refine ⟨Number.floatNum x, rfl, ?_⟩
      have hxq : x = q := by
        rw [directEval] at h
        injection h
      exact hxq
  | PyAst.constant (PyVal.boolVal b), q, h => by
      simp [directEval] at h
  | PyAst.constant (PyVal.strVal s), q, h => by
      simp [directEval] at h
  | PyAst.constant PyVal.noneVal, q, h => by
      simp [directEval] at h
  | PyAst.binop k l r, q, h => by
      rcases hl : directEval l with _ | a
      · rw [directEval, hl] at h
        cases h
      · rcases hr : directEval r with _ | b
        · rw [directEval, hl, hr] at h
          cases k <;> cases h
        · rw [directEval, hl, hr] at h
          obtain ⟨va, hva, hvaq⟩ := evalAgree l a hl
          obtain ⟨vb, hvb, hvbq⟩ := evalAgree r b hr
          have heval : ∀ w, applyBin k va vb = Except.ok w →
              evalA (PyAst.binop k l r) = Except.ok w := by
            intro w hw
            have hall : allowedBin k = true := by
              cases k <;> first
                | rfl
                | (exfalso; revert h; simp)
            rw [evalA, if_pos hall, hva, hvb]
            exact hw
          cases k with
          | addOp =>
              have hq : qadd a b = q := by injection h
              refine ⟨va.add vb, heval _ rfl, ?_⟩
              rw [toRat_add, hvaq, hvbq, ← qadd_eq_add]
              exact hq
          | subOp =>
              have hq : qsub a b = q := by injection h
              refine ⟨va.sub vb, heval _ rfl, ?_⟩
              rw [toRat_sub, hvaq, hvbq, ← qsub_eq_sub]
              exact hq
          | multOp =>
              have hq : qmul a b = q := by injection h
              refine ⟨va.mul vb, heval _ rfl, ?_⟩
              rw [toRat_mul, hvaq, hvbq, ← qmul_eq_mul]
              exact hq
          | divOp =>
              obtain ⟨v, hv, hvq⟩ := div_agree hvaq hvbq h
              exact ⟨v, heval _ hv, hvq⟩
          | powOp =>
              obtain ⟨v, hv, hvq⟩ := pow_agree hvaq hvbq h
              exact ⟨v, heval _ hv, hvq⟩
          | modOp => cases h
          | floorDivOp => cases h
  | PyAst.unaryop k e, q, h => by
      rcases he : directEval e with _ | a
      · rw [directEval, he] at h
        cases h
      · rw [directEval, he] at h
        obtain ⟨v, hv, hvq⟩ := evalAgree e a he
        cases k with
        | uSub =>
            have hq : -a = q := by injection h
            refine ⟨v.negN, ?_, ?_⟩
            · rw [evalA, if_pos (show allowedUn UnOpK.uSub = true from rfl), hv]
              rfl
            · rw [toRat_neg, hvq]
              exact hq
        | uAdd =>
            have hq : a = q := by injection h
            refine ⟨v.posN, ?_, ?_⟩
            · rw [evalA, if_pos (show allowedUn UnOpK.uAdd = true from rfl), hv]
              rfl
            · rw [toRat_pos, hvq]
              exact hq
        | uNot => cases h
        | uInvert => cases h
  | PyAst.name _, q, h => by
      simp [directEval] at h
  | PyAst.call _ _, q, h => by
      simp [directEval] at h
  | PyAst.attr _ _, q, h => by
      simp [directEval] at h

/-- A tree containing any node outside the whitelist never evaluates to a
value: the walk fails, with the unsupported-structure error unless an
earlier-evaluated subtree already raised a division by zero. -/
theorem evalBad : ∀ t : PyAst, containsBad t = true →
    evalA t = Except.error EvalExc.unsupported ∨
    evalA t = Except.error EvalExc.zeroDiv
  | PyAst.constant (PyVal.intVal n), h => by simp [containsBad] at h
  | PyAst.constant (PyVal.floatVal x), h => by simp [containsBad] at h
  | PyAst.constant (PyVal.boolVal b), h => by simp [containsBad] at h
  | PyAst.constant (PyVal.strVal s), h => by
      left
      rfl
  | PyAst.constant PyVal.noneVal, h => by
      left
      rfl
  | PyAst.binop k l r, h => by
      by_cases hk : allowedBin k = true
      · have hlr : containsBad l = true ∨ containsBad r = true := by
          rw [containsBad, hk] at h
          simpa using h
        rcases hel : evalA l with el | va
        · have hcases : el = EvalExc.unsupported ∨ el = EvalExc.zeroDiv := by
            cases el
            · exact Or.inl rfl
            · exact Or.inr rfl
          have : evalA (PyAst.binop k l r) = Except.error el := by
            rw [evalA, if_pos hk, hel]
          rcases hcases with hc | hc
          · left; rw [this, hc]
          · right; rw [this, hc]
        · rcases her : evalA r with er | vb
          · have hcases : er = EvalExc.unsupported ∨ er = EvalExc.zeroDiv := by
              cases er
              · exact Or.inl rfl
              · exact Or.inr rfl
            have : evalA (PyAst.binop k l r) = Except.error er := by
              rw [evalA, if_pos hk, hel, her]
            rcases hcases with hc | hc
            · left; rw [this, hc]
            · right; rw [this, hc]
          · exfalso
            rcases hlr with hb | hb
            · rcases evalBad l hb with hc | hc
              · rw [hel] at hc; cases hc
              · rw [hel] at hc; cases hc
            · rcases evalBad r hb with hc | hc
              · rw [her] at hc; cases hc
              · rw [her] at hc; cases hc
      · left
        rw [evalA, if_neg hk]
  | PyAst.unaryop k e, h => by
      by_cases hk : allowedUn k = true
      · have hb : containsBad e = true := by
          rw [containsBad, hk] at h
          simpa using h
        rcases hee : evalA e with ex | v
        · have hcases : ex = EvalExc.unsupported ∨ ex = EvalExc.zeroDiv := by
            cases ex
            · exact Or.inl rfl
            · exact Or.inr rfl
          have : evalA (PyAst.unaryop k e) = Except.error ex := by
            rw [evalA, if_pos hk, hee]
          rcases hcases with hc | hc
          · left; rw [this, hc]
          · right; rw [this, hc]
        · exfalso
          rcases evalBad e hb with hc | hc
          · rw [hee] at hc; cases hc
          · rw [hee] at hc; cases hc
      · left
        rw [evalA, if_neg hk]
  | PyAst.name _, h => by
      left
      rfl
  | PyAst.call _ _, h => by
      left
      rfl
  | PyAst.attr _ _, h => by
      left
      rfl

/-! ## The caret rewrite aligns the two lexers -/

theorem head_dropWhile_not (p : Char → Bool) (l : List Char) :
    ∀ c, (l.dropWhile p).head? = some c → p c = false := by
  induction l with
  | nil => intro c hc; simp at hc
  | cons x xs ih =>
      intro c hc
      by_cases hx : p x = true
      · rw [List.dropWhile_cons, if_pos hx] at hc
        exact ih c hc
      · rw [List.dropWhile_cons, if_neg hx] at hc
        have hxc : x = c := by simpa using hc
        subst hxc
        simpa using hx

theorem rcl_append (a b : List Char) :
    replaceCaretL (a ++ b) = replaceCaretL a ++ replaceCaretL b := by
  simp [replaceCaretL]

theorem rcl_cons (c : Char) (cs : List Char) :
    replaceCaretL (c :: cs) =
      (if c = '^' then ['*', '*'] else [c]) ++ replaceCaretL cs := by
  by_cases hc : c = '^' <;> simp [replaceCaretL, hc]

theorem rcl_no_caret {a : List Char} (h : ∀ c ∈ a, (c = '^') = False) :
    replaceCaretL a = a := by
  induction a with
  | nil => rfl
  | cons x xs ih =>
      rw [rcl_cons, ih (fun c hc => h c (by simp [hc]))]
      have hx : (x = '^') = False := h x (by simp)
      simp at hx
      simp [hx]

theorem rcl_ne_nil {a : List Char} (h : a ≠ []) : replaceCaretL a ≠ [] := by
  cases a with
  | nil => exact absurd rfl h
  | cons x xs =>
      rw [rcl_cons]
      by_cases hx : x = '^' <;> simp [hx]

theorem rcl_head_not {X : List Char} {p : Char → Bool}
    (hp : ∀ x, X.head? = some x → p x = false) (hstar : p '*' = false) :
    ∀ x, (replaceCaretL X).head? = some x → p x = false := by
  intro x hx
  cases X with
  | nil => simp [replaceCaretL] at hx
  | cons y ys =>
      rw [rcl_cons] at hx
      by_cases hy : y = '^'
      · rw [if_pos hy] at hx
        have hxy : x = '*' := (show ('*' : Char) = x by simpa using hx).symm
        subst hxy
        exact hstar
      · rw [if_neg hy] at hx
        have hxy : x = y := (show y = x by simpa using hx).symm
        subst hxy
        exact hp x rfl

theorem numSplit_spec {cs ds fs rest : List Char} {hasDot : Bool}
    (h : numSplit cs = (ds, hasDot, fs, rest)) :
    cs = (if hasDot then ds ++ '.' :: fs else ds) ++ rest ∧
    (∀ c ∈ ds, c.isDigit = true) ∧ (∀ c ∈ fs, c.isDigit = true) ∧
    (∀ x, rest.head? = some x → x.isDigit = false) ∧
    (hasDot = false → fs = [] ∧ ∀ x, rest.head? = some x → x ≠ '.') := by
  simp only [numSplit] at h
  rcases hr1 : cs.dropWhile Char.isDigit with _ | ⟨c, r2⟩
  · rw [hr1] at h
    rw [if_neg (by simp)] at h
    simp only [Prod.mk.injEq] at h
    obtain ⟨h1, h2, h3, h4⟩ := h
    subst h1; subst h2; subst h3; subst h4
    refine ⟨?_, mem_takeWhile_sat cs, by intro c hc; simp at hc,
      by intro x hx; simp at hx, by intro _; exact ⟨rfl, by intro x hx; simp at hx⟩⟩
    simp only [Bool.false_eq_true, if_neg]
    conv_lhs => rw [← List.takeWhile_append_dropWhile Char.isDigit cs]
    rw [hr1]
    simp
  · rw [hr1] at h
    by_cases hc : c = '.'
    · rw [if_pos (by simp [hc])] at h
      simp only [Prod.mk.injEq, List.tail_cons] at h
      obtain ⟨h1, h2, h3, h4⟩ := h
      subst h1; subst h2; subst h3; subst h4
      refine ⟨?_, mem_takeWhile_sat cs, mem_takeWhile_sat r2,
        head_dropWhile_not Char.isDigit r2, by intro hcon; cases hcon⟩
      rw [if_pos rfl]
      conv_lhs => rw [← List.takeWhile_append_dropWhile Char.isDigit cs]
      rw [hr1, hc]
      rw [List.append_assoc]
      congr 2
      conv_lhs => rw [← List.takeWhile_append_dropWhile Char.isDigit r2]
      rfl
    · rw [if_neg (by simp [hc])] at h
      simp only [Prod.mk.injEq] at h
      obtain ⟨h1, h2, h3, h4⟩ := h
      subst h1; subst h2; subst h3; subst h4
      have hhead : ∀ x, (c :: r2).head? = some x → x.isDigit = false := by
        intro x hx
        have hcx : c = x := by simpa using hx
        subst hcx
        have hd := head_dropWhile_not Char.isDigit cs
        rw [hr1] at hd
        exact hd c rfl
      refine ⟨?_, mem_takeWhile_sat cs, by intro x hx; simp at hx,
        hhead, ?_⟩
      · simp only [Bool.false_eq_true, if_neg, not_false_iff, if_false]
        conv_lhs => rw [← List.takeWhile_append_dropWhile Char.isDigit cs]
        rw [hr1]
      · intro _
        refine ⟨rfl, ?_⟩
        intro x hx
        have hcx : c = x := by simpa using hx
        subst hcx
        exact hc

theorem numSplit_build {ds fs X : List Char} {hasDot : Bool}
    (hds : ∀ c ∈ ds, c.isDigit = true) (hfs : ∀ c ∈ fs, c.isDigit = true)
    (hX : ∀ x, X.head? = some x → x.isDigit = false)
    (hXdot : hasDot = false → ∀ x, X.head? = some x → x ≠ '.')
    (hfse : hasDot = false → fs = []) :
    numSplit ((if hasDot then ds ++ '.' :: fs else ds) ++ X) =
      (ds, hasDot, fs, X) := by
  cases hasDot with
  | true =>
      rw [if_pos rfl]
      have hl : (ds ++ '.' :: fs) ++ X = ds ++ ('.' :: (fs ++ X)) := by
        simp [List.append_assoc]
      rw [hl]
      have htw : (ds ++ ('.' :: (fs ++ X))).takeWhile Char.isDigit = ds :=
        takeWhile_append_not _ _ hds
          (by intro x hx; have hd : x = '.' := (show ('.' : Char) = x by simpa using hx).symm; subst hd; decide)
      have hdw : (ds ++ ('.' :: (fs ++ X))).dropWhile Char.isDigit
          = '.' :: (fs ++ X) :=
        dropWhile_append_not _ _ hds
          (by intro x hx; have hd : x = '.' := (show ('.' : Char) = x by simpa using hx).symm; subst hd; decide)
      rw [numSplit]
      simp only [htw, hdw]
      rw [if_pos (by simp)]
      simp only [List.tail_cons, Prod.mk.injEq]
      refine ⟨trivial, trivial, ?_, ?_⟩
      · exact takeWhile_append_not _ _ hfs hX
      · exact dropWhile_append_not _ _ hfs hX
  | false =>
      rw [if_neg (by simp)]
      have hfe : fs = [] := hfse rfl
      have htw : (ds ++ X).takeWhile Char.isDigit = ds :=
        takeWhile_append_not _ _ hds hX
      have hdw : (ds ++ X).dropWhile Char.isDigit = X :=
        dropWhile_append_not _ _ hds hX
      rw [numSplit]
      simp only [htw, hdw]
      rw [if_neg ?_]
      · rw [hfe]
      · intro hcon
        obtain ⟨hh, hne⟩ := hcon
        cases X with
        | nil => exact hne rfl
        | cons x xs =>
            have hx : x = '.' := by simpa using hh
            exact (hXdot rfl x rfl) hx

theorem inlineWs_not_caret {c : Char} (h : isInlineWs c = true) : c ≠ '^' := by
  intro hcon
  subst hcon
  simp [isInlineWs] at h

theorem digit_not_caret {c : Char} (h : c.isDigit = true) : c ≠ '^' := by
  intro hcon
  subst hcon
  simp at h

/-- One spec-lexer step is simulated by the host lexer on the rewritten
input: it produces the same token and the rewritten remainder, and it
consumes a nonempty prefix. -/
theorem step_corr {c : Char} {cs rest : List Char} {ot : Option Tok}
    (h : specStep c cs = Except.ok (ot, rest)) :
    (∃ pre, pre ≠ [] ∧ pre ++ rest = c :: cs) ∧
    (∃ c2 cs2, replaceCaretL (c :: cs) = c2 :: cs2 ∧
      srcStep c2 cs2 = Except.ok (ot, replaceCaretL rest)) := by
  rw [specStep.eq_def] at h
  by_cases hws : isInlineWs c = true
  · rw [if_pos hws] at h
    have hot : ot = Option.none ∧ rest = cs := by
      have h2 := h
      simp only [Except.ok.injEq, Prod.mk.injEq] at h2
      exact ⟨h2.1.symm, h2.2.symm⟩
    obtain ⟨ho, hr⟩ := hot
    subst ho; subst hr
    refine ⟨⟨[c], by simp, rfl⟩, c, replaceCaretL rest, ?_, ?_⟩
    · rw [rcl_cons, if_neg (inlineWs_not_caret hws)]
      rfl
    · rw [srcStep.eq_def, if_pos hws]
  · rw [if_neg hws] at h
    by_cases hnum : (c.isDigit || ((c = '.') && headIsDigit cs)) = true
    · rw [if_pos hnum] at h
      rcases hsplit : numSplit (c :: cs) with ⟨ds, hasDot, fs, rest0⟩
      simp only [hsplit] at h
      rcases htok : numTokOf ds hasDot fs with e | t
      · rw [htok] at h
        cases h
      · rw [htok] at h
        have hot : ot = some t ∧ rest = rest0 := by
          have h2 := h
          simp only [Except.ok.injEq, Prod.mk.injEq] at h2
          exact ⟨h2.1.symm, h2.2.symm⟩
        obtain ⟨ho, hr⟩ := hot
        subst ho; subst hr
        obtain ⟨hA, hB1, hB2, hC, hD⟩ := numSplit_spec hsplit
        have hcore_ne : (if hasDot then ds ++ '.' :: fs else ds) ≠ [] := by
          cases hasDot with
          | true => simp
          | false =>
              simp only [Bool.false_eq_true, if_false]
              intro hds
              rw [if_neg (by simp), hds, List.nil_append] at hA
              have hcd : c.isDigit = false := hC c (by rw [← hA]; rfl)
              have hcdot : c ≠ '.' := (hD rfl).2 c (by rw [← hA]; rfl)
              rcases Bool.or_eq_true _ _ |>.mp hnum with h1 | h1
              · rw [hcd] at h1; cases h1
              · have := (Bool.and_eq_true _ _ |>.mp h1).1
                exact hcdot (by simpa using this)
        obtain ⟨c0, ct, hct⟩ := List.exists_cons_of_ne_nil hcore_ne
        rw [hct] at hA
        have hc0 : c0 = c ∧ cs = ct ++ rest := by
          rw [List.cons_append] at hA
          exact ⟨(List.cons.injEq _ _ _ _ |>.mp hA).1.symm,
            (List.cons.injEq _ _ _ _ |>.mp hA).2⟩
        obtain ⟨hc0e, hcs⟩ := hc0
        rw [hc0e] at hct
        have hcore_nocaret : ∀ x ∈ (if hasDot then ds ++ '.' :: fs else ds),
            (x = '^') = False := by
          intro x hx
          simp only [eq_iff_iff, iff_false]
          cases hasDot with
          | true =>
              rw [if_pos rfl] at hx
              rcases List.mem_append.mp hx with hx | hx
              · exact digit_not_caret (hB1 x hx)
              · rcases List.mem_cons.mp hx with hx | hx
                · subst hx; decide
                · exact digit_not_caret (hB2 x hx)
          | false =>
              simp only [Bool.false_eq_true, if_false] at hx
              exact digit_not_caret (hB1 x hx)
        have hrcl : replaceCaretL (c :: cs) = c :: (ct ++ replaceCaretL rest) := by
          have hA2 : c :: cs = (if hasDot then ds ++ '.' :: fs else ds) ++ rest := by
            rw [hcs, hct]
            rfl
          rw [hA2, rcl_append, rcl_no_caret hcore_nocaret, hct]
          rfl
        have hX : ∀ x, (replaceCaretL rest).head? = some x → x.isDigit = false :=
          rcl_head_not hC (by decide)
        have hXdot : hasDot = false →
            ∀ x, (replaceCaretL rest).head? = some x → x ≠ '.' := by
          intro hdf
          have hp : ∀ x, rest.head? = some x → decide (x = '.') = false := by
            intro x hx
            exact decide_eq_false ((hD hdf).2 x hx)
          have := rcl_head_not (p := fun x => decide (x = '.')) hp (by decide)
          intro x hx
          exact of_decide_eq_false (this x hx)
        have hbuild : numSplit (c :: (ct ++ replaceCaretL rest)) =
            (ds, hasDot, fs, replaceCaretL rest) := by
          have hre : c :: (ct ++ replaceCaretL rest) =
              (if hasDot then ds ++ '.' :: fs else ds) ++ replaceCaretL rest := by
            rw [hct]
            rfl
          rw [hre]
          exact numSplit_build hB1 hB2 hX hXdot (fun hdf => (hD hdf).1)
        have hnum2 : (c.isDigit ||
            ((c = '.') && headIsDigit (ct ++ replaceCaretL rest))) = true := by
          rcases Bool.or_eq_true _ _ |>.mp hnum with h1 | h1
          · rw [h1]
            rfl
          · obtain ⟨hdot, hdig⟩ := Bool.and_eq_true _ _ |>.mp h1
            have hcd : c = '.' := by simpa using hdot
            subst hcd
            have hns : numSplit ('.' :: cs) =
                ([], true, cs.takeWhile Char.isDigit, cs.dropWhile Char.isDigit) := rfl
            rw [hns] at hsplit
            have hds0 : ds = [] := by
              have h2 := hsplit
              simp only [Prod.mk.injEq] at h2
              exact h2.1.symm
            have hdot1 : hasDot = true := by
              have h2 := hsplit
              simp only [Prod.mk.injEq] at h2
              exact h2.2.1.symm
            have hfs0 : fs = cs.takeWhile Char.isDigit := by
              have h2 := hsplit
              simp only [Prod.mk.injEq] at h2
              exact h2.2.2.1.symm
            have hctfs : ct = fs := by
              rw [hdot1, if_pos rfl, hds0] at hct
              simp only [List.nil_append] at hct
              exact ((List.cons.injEq _ _ _ _ |>.mp hct).2).symm
            cases hcs2 : cs with
            | nil => rw [hcs2] at hdig; simp [headIsDigit] at hdig
            | cons d cs2 =>
                rw [hcs2] at hdig
                have hd : d.isDigit = true := by simpa [headIsDigit] using hdig
                have hfs1 : fs = d :: cs2.takeWhile Char.isDigit := by
                  rw [hfs0, hcs2, List.takeWhile_cons, if_pos hd]
                refine Bool.or_eq_true _ _ |>.mpr (Or.inr ?_)
                refine Bool.and_eq_true _ _ |>.mpr ⟨by simp, ?_⟩
                rw [hctfs, hfs1]
                simpa [headIsDigit] using hd
        refine ⟨⟨(if hasDot then ds ++ '.' :: fs else ds), hcore_ne,
            by rw [hct, hcs]; rfl⟩,
          c, ct ++ replaceCaretL rest, hrcl, ?_⟩
        · rw [srcStep.eq_def, if_neg hws, if_pos hnum2]
          simp only [hbuild, htok]
    · rw [if_neg hnum] at h
      by_cases hplus : c = '+'
      · rw [if_pos hplus] at h
        have hot : ot = some Tok.plusT ∧ rest = cs := by
          have h2 := h
          simp only [Except.ok.injEq, Prod.mk.injEq] at h2
          exact ⟨h2.1.symm, h2.2.symm⟩
        obtain ⟨ho, hr⟩ := hot
        subst ho; subst hr
        subst hplus
        exact ⟨⟨['+'], by simp, rfl⟩, '+', replaceCaretL rest,
          by rw [rcl_cons, if_neg (by decide)]; rfl, rfl⟩
      · rw [if_neg hplus] at h
        by_cases hminus : c = '-'
        · rw [if_pos hminus] at h
          have hot : ot = some Tok.minusT ∧ rest = cs := by
            have h2 := h
            simp only [Except.ok.injEq, Prod.mk.injEq] at h2
            exact ⟨h2.1.symm, h2.2.symm⟩
          obtain ⟨ho, hr⟩ := hot
          subst ho; subst hr
          subst hminus
          exact ⟨⟨['-'], by simp, rfl⟩, '-', replaceCaretL rest,
            by rw [rcl_cons, if_neg (by decide)]; rfl, rfl⟩
        · rw [if_neg hminus] at h
          by_cases hcaret : c = '^'
          · rw [if_pos hcaret] at h
            have hot : ot = some Tok.powT ∧ rest = cs := by
              have h2 := h
              simp only [Except.ok.injEq, Prod.mk.injEq] at h2
              exact ⟨h2.1.symm, h2.2.symm⟩
            obtain ⟨ho, hr⟩ := hot
            subst ho; subst hr
            subst hcaret
            refine ⟨⟨['^'], by simp, rfl⟩, '*', '*' :: replaceCaretL rest, ?_, rfl⟩
            rw [rcl_cons, if_pos rfl]
            rfl
          · rw [if_neg hcaret] at h
            by_cases hstar : c = '*'
            · rw [if_pos hstar] at h
              subst hstar
              cases hcs : cs with
              | nil =>
                  rw [hcs] at h
                  have hot : ot = some Tok.starT ∧ rest = [] := by
                    have h2 := h
                    simp only [Except.ok.injEq, Prod.mk.injEq] at h2
                    exact ⟨h2.1.symm, h2.2.symm⟩
                  obtain ⟨ho, hr⟩ := hot
                  subst ho; subst hr
                  exact ⟨⟨['*'], by simp, rfl⟩, '*', [], rfl, rfl⟩
              | cons d cs2 =>
                  rw [hcs] at h
                  by_cases hd : ((d = '*' : Bool) || (d = '^' : Bool)) = true
                  · simp [hd] at h
                  · have hdf : ((d = '*' : Bool) || (d = '^' : Bool)) = false := by
                      simpa using hd
                    simp only [hdf, Bool.false_eq_true, if_false] at h
                    have hot : ot = some Tok.starT ∧ rest = d :: cs2 := by
                      have h2 := h
                      simp only [Except.ok.injEq, Prod.mk.injEq] at h2
                      exact ⟨h2.1.symm, h2.2.symm⟩
                    obtain ⟨ho, hr⟩ := hot
                    subst ho; subst hr
                    have hds : ¬(d = '*') ∧ ¬(d = '^') := by
                      constructor <;> intro hcon <;> subst hcon <;> simp at hd
                    refine ⟨⟨['*'], by simp, rfl⟩, '*',
                      d :: replaceCaretL cs2, ?_, ?_⟩
                    · rw [rcl_cons, if_neg (by decide), rcl_cons,
                        if_neg hds.2]
                      rfl
                    · have hsrc : srcStep '*' (d :: replaceCaretL cs2) =
                          if d = '*' then Except.ok (some Tok.powT, replaceCaretL cs2)
                          else Except.ok (some Tok.starT, d :: replaceCaretL cs2) := rfl
                      rw [hsrc, if_neg hds.1, rcl_cons, if_neg hds.2]
                      rfl
            · rw [if_neg hstar] at h
              by_cases hslash : c = '/'
              · rw [if_pos hslash] at h
                subst hslash
                cases hcs : cs with
                | nil =>
                    rw [hcs] at h
                    have hot : ot = some Tok.slashT ∧ rest = [] := by
                      have h2 := h
                      simp only [Except.ok.injEq, Prod.mk.injEq] at h2
                      exact ⟨h2.1.symm, h2.2.symm⟩
                    obtain ⟨ho, hr⟩ := hot
                    subst ho; subst hr
                    exact ⟨⟨['/'], by simp, rfl⟩, '/', [], rfl, rfl⟩
                | cons d cs2 =>
                    rw [hcs] at h
                    by_cases hd : d = '/'
                    · simp [hd] at h
                    · simp only [hd, if_false] at h
                      have hot : ot = some Tok.slashT ∧ rest = d :: cs2 := by
                        have h2 := h
                        simp only [Except.ok.injEq, Prod.mk.injEq] at h2
                        exact ⟨h2.1.symm, h2.2.symm⟩
                      obtain ⟨ho, hr⟩ := hot
                      subst ho; subst hr
                      by_cases hdc : d = '^'
                      · subst hdc
                        refine ⟨⟨['/'], by simp, rfl⟩, '/',
                          '*' :: '*' :: replaceCaretL cs2, ?_, ?_⟩
                        · rw [rcl_cons, if_neg (by decide), rcl_cons, if_pos rfl]
                          rfl
                        · rfl
                      · refine ⟨⟨['/'], by simp, rfl⟩, '/',
                          d :: replaceCaretL cs2, ?_, ?_⟩
                        · rw [rcl_cons, if_neg (by decide), rcl_cons, if_neg hdc]
                          rfl
                        · have hsrc : srcStep '/' (d :: replaceCaretL cs2) =
                              if d = '/' then Except.ok (some Tok.dslashT, replaceCaretL cs2)
                              else Except.ok (some Tok.slashT, d :: replaceCaretL cs2) := rfl
                          rw [hsrc, if_neg hd, rcl_cons, if_neg hdc]
                          rfl
              · rw [if_neg hslash] at h
                by_cases hlp : c = '('
                · rw [if_pos hlp] at h
                  have hot : ot = some Tok.lparenT ∧ rest = cs := by
                    have h2 := h
                    simp only [Except.ok.injEq, Prod.mk.injEq] at h2
                    exact ⟨h2.1.symm, h2.2.symm⟩
                  obtain ⟨ho, hr⟩ := hot
                  subst ho; subst hr
                  subst hlp
                  exact ⟨⟨['('], by simp, rfl⟩, '(', replaceCaretL rest,
                    by rw [rcl_cons, if_neg (by decide)]; rfl, rfl⟩
                · rw [if_neg hlp] at h
                  by_cases hrp : c = ')'
                  · rw [if_pos hrp] at h
                    have hot : ot = some Tok.rparenT ∧ rest = cs := by
                      have h2 := h
                      simp only [Except.ok.injEq, Prod.mk.injEq] at h2
                      exact ⟨h2.1.symm, h2.2.symm⟩
                    obtain ⟨ho, hr⟩ := hot
                    subst ho; subst hr
                    subst hrp
                    exact ⟨⟨[')'], by simp, rfl⟩, ')', replaceCaretL rest,
                      by rw [rcl_cons, if_neg (by decide)]; rfl, rfl⟩
                  · rw [if_neg hrp] at h
                    cases h

/-- The fueled drivers correspond: with adequate fuel, a successful spec
lex of the input is reproduced by the host lexer on the rewritten input. -/
theorem tokDrive_corr : ∀ (n : ℕ) (cs : List Char) (ts : List Tok) (f1 f2 : ℕ),
    cs.length ≤ n → cs.length < f1 → (replaceCaretL cs).length < f2 →
    tokDrive specStep f1 cs = Except.ok ts →
    tokDrive srcStep f2 (replaceCaretL cs) = Except.ok ts := by
  intro n
  induction n with
  | zero =>
      intro cs ts f1 f2 hn hf1 hf2 hs
      have hcs : cs = [] := List.eq_nil_of_length_eq_zero (by omega)
      subst hcs
      rcases f1 with _ | g1
      · omega
      · rcases f2 with _ | g2
        · simp [replaceCaretL] at hf2
        · have hts : ts = [] := by
            have h2 : Except.ok ([] : List Tok) = Except.ok ts := hs
            simp only [Except.ok.injEq] at h2
            exact h2.symm
          subst hts
          rfl
  | succ n ih =>
      intro cs ts f1 f2 hn hf1 hf2 hs
      cases cs with
      | nil =>
          rcases f1 with _ | g1
          · omega
          · rcases f2 with _ | g2
            · simp [replaceCaretL] at hf2
            · have hts : ts = [] := by
                have h2 : Except.ok ([] : List Tok) = Except.ok ts := hs
                simp only [Except.ok.injEq] at h2
                exact h2.symm
              subst hts
              rfl
      | cons c cs2 =>
          rcases f1 with _ | g1
          · omega
          · rw [tokDrive] at hs
            rcases hstep : specStep c cs2 with e | p
            · simp [hstep] at hs
            · rcases p with ⟨ot, rest⟩
              simp only [hstep] at hs
              rcases hrec : tokDrive specStep g1 rest with e | ts2
              · simp [hrec] at hs
              · simp only [hrec] at hs
                obtain ⟨⟨pre, hpre_ne, hpre⟩, c2, cs3, hrcl, hsrc⟩ := step_corr hstep
                have hrest_len : rest.length ≤ cs2.length := by
                  have := congrArg List.length hpre
                  simp only [List.length_append, List.length_cons] at this
                  have hp1 : 1 ≤ pre.length := by
                    cases pre with
                    | nil => exact absurd rfl hpre_ne
                    | cons _ _ => simp
                  omega
                have hrcl_len : (replaceCaretL rest).length <
                    (replaceCaretL (c :: cs2)).length := by
                  have hsplit2 : replaceCaretL (c :: cs2) =
                      replaceCaretL pre ++ replaceCaretL rest := by
                    rw [← rcl_append, hpre]
                  rw [hsplit2]
                  have : replaceCaretL pre ≠ [] := rcl_ne_nil hpre_ne
                  have hp1 : 1 ≤ (replaceCaretL pre).length := by
                    cases hrp : replaceCaretL pre with
                    | nil => exact absurd hrp this
                    | cons _ _ => simp
                  simp only [List.length_append]
                  omega
                rcases f2 with _ | g2
                · omega
                · have hdrive : tokDrive srcStep g2 (replaceCaretL rest) =
                      Except.ok ts2 := by
                    have hlen : (c :: cs2).length = cs2.length + 1 := by simp
                    refine ih rest ts2 g1 g2 ?_ ?_ ?_ hrec
                    · omega
                    · omega
                    · rw [hrcl] at hrcl_len hf2
                      simp only [List.length_cons] at hrcl_len hf2
                      omega
                  rw [hrcl, tokDrive]
                  simp only [hsrc, hdrive]
                  exact hs

/-- The spec lexer is simulated by the host lexer after the caret
rewrite. -/
theorem tokenize_corr {cs : List Char} {ts : List Tok}
    (h : specTokenize cs = Except.ok ts) :
    srcTokenize (replaceCaretL cs) = Except.ok ts := by
  cases cs with
  | nil => exact h
  | cons c cs2 =>
      rw [specTokenize] at h
      by_cases hws : isInlineWs c = true
      · rw [if_pos hws] at h
        cases h
      · rw [if_neg hws] at h
        have hrclc : replaceCaretL (c :: cs2) =
            (if c = '^' then ['*', '*'] else [c]) ++ replaceCaretL cs2 :=
          rcl_cons c cs2
        have hcorr := tokDrive_corr (c :: cs2).length (c :: cs2) ts
          ((c :: cs2).length + 1) ((replaceCaretL (c :: cs2)).length + 1)
          (le_refl _) (by omega) (by omega) h
        rcases hhead : replaceCaretL (c :: cs2) with _ | ⟨c2, cs3⟩
        · exfalso
          exact rcl_ne_nil (by simp) hhead
        · rw [srcTokenize]
          have hws2 : isInlineWs c2 = false := by
            rw [hhead] at hrclc
            by_cases hc : c = '^'
            · rw [if_pos hc] at hrclc
              simp only [List.cons_append, List.nil_append, List.cons.injEq] at hrclc
              rw [hrclc.1]
              rfl
            · rw [if_neg hc] at hrclc
              simp only [List.cons_append, List.nil_append, List.cons.injEq] at hrclc
              rw [hrclc.1]
              simpa using hws
          rw [if_neg (by rw [hws2]; simp)]
          rw [← hhead]
          exact hcorr

/-- Master refinement for the well-formed arithmetic fragment: a string
with a mathematically-defined value under the specification grammar is
evaluated by `safe_eval` to a value with exactly that rational meaning. -/
theorem spec_eval_safe {s : String} {q : ℚ} (h : specEvalStr s = some q) :
    ∃ v, safe_eval (some s) = Except.ok v ∧ v.toRat = q := by
  rw [specEvalStr] at h
  rcases hp : specParseStr s with e | t
  · rw [hp] at h
    cases h
  · rw [hp] at h
    rw [specParseStr] at hp
    rcases htk : specTokenize s.data with e | ts
    · rw [htk] at hp
      cases hp
    · rw [htk] at hp
      change pyParseTokens ts = Except.ok t at hp
      change directEval t = some q at h
      have hsne : s ≠ "" := by
        intro hcon
        subst hcon
        have h0 : Except.ok ([] : List Tok) = Except.ok ts := htk
        have hts : ts = [] := by
          simp only [Except.ok.injEq] at h0
          exact h0.symm
        rw [hts] at hp
        have hpe : pyParseTokens ([] : List Tok) =
            Except.error ("invalid syntax") := rfl
        rw [hpe] at hp
        cases hp
      have hsrct : srcTokenize (replaceCaret s).data = Except.ok ts := by
        have hrepl : (replaceCaret s).data = replaceCaretL s.data := rfl
        rw [hrepl]
        exact tokenize_corr htk
      have hparse : pyParseExpr (replaceCaret s) = Except.ok t := by
        rw [pyParseExpr, hsrct]
        exact hp
      obtain ⟨v, hv, hvq⟩ := evalAgree t q h
      refine ⟨v, ?_, hvq⟩
      simp only [safe_eval]
      rw [if_neg hsne]
      simp only [hparse, hv]

/-- Claim C1 (amended): for every input string whose parsed tree contains
a node outside the whitelist, `safe_eval` fails — with the
unsupported-structure error, unless the whitelist walk aborts with the
division-by-zero error in an earlier-evaluated whitelisted subtree — and
in particular the __import__ and open examples of the specification both
fail with the unsupported-structure error.  The model is a pure
function, so no evaluation of a rejected node, hence no side effect,
ever occurs. -/
theorem claim_C1 :
    (∀ (s : String) (t : PyAst),
      pyParseExpr (replaceCaret s) = Except.ok t → containsBad t = true →
      safe_eval (some s) = Except.error EvalError.unsupported ∨
      safe_eval (some s) = Except.error EvalError.divByZero) ∧
    safe_eval (some importOsStr) = Except.error EvalError.unsupported ∧
    safe_eval (some openFStr) = Except.error EvalError.unsupported := by
  refine ⟨?_, by decide, by decide⟩
  intro s t hp hbad
  by_cases hse : s = ""
  · exfalso
    rw [hse] at hp
    have hne : pyParseExpr (replaceCaret ("")) =
        Except.error ("invalid syntax") := rfl
    rw [hne] at hp
    cases hp
  · rcases evalBad t hbad with hb | hb
    · left
      simp only [safe_eval]
      rw [if_neg hse]
      simp only [hp, hb]
    · right
      simp only [safe_eval]
      rw [if_neg hse]
      simp only [hp, hb]

/-- Counterexample to claim C1 as stated: the input 1/0+open(...) parses
to a tree containing a non-whitelisted call node, yet `safe_eval` fails
with the division-by-zero error, not the unsupported-structure error,
because the left summand is evaluated first and aborts the walk. -/
theorem claim_C1_counterexample :
    pyParseExpr (replaceCaret divZeroCallStr) = Except.ok divZeroCallTree ∧
    containsBad divZeroCallTree = true ∧
    safe_eval (some divZeroCallStr) = Except.error EvalError.divByZero ∧
    safe_eval (some divZeroCallStr) ≠ Except.error EvalError.unsupported :=
  ⟨rfl, by decide, by decide, by decide⟩

/-- Witness for claim C1 at the __import__ example. -/
theorem claim_C1_witness :
    safe_eval (some importOsStr) = Except.error EvalError.unsupported ∨
    safe_eval (some importOsStr) = Except.error EvalError.divByZero :=
  claim_C1.1 importOsStr importOsTree rfl (by decide)

/-- Claim C2: every well-formed arithmetic string of the specification
grammar (digits, the operators plus minus star slash caret, parentheses,
decimal points and whitespace) with a mathematically defined value is
evaluated by `safe_eval` to a numeric value with exactly that rational
meaning, under standard precedence, left-associativity and
right-associative power; the caret is the power operator (2^10 = 1024)
and division is true division (10/4 = 5/2, the exact-rational reading of
2.5). -/
theorem claim_C2 :
    (∀ (s : String) (q : ℚ), specEvalStr s = some q →
      ∃ v, safe_eval (some s) = Except.ok v ∧ v.toRat = q) ∧
    safe_eval (some ("2^10")) = Except.ok (Number.intNum 1024) ∧
    specEvalStr ("2^10") = some 1024 ∧
    safe_eval (some ("10/4")) = Except.ok (Number.floatNum (mkRat 5 2)) ∧
    specEvalStr ("10/4") = some (mkRat 5 2) ∧
    safe_eval (some ("2+3*4")) = Except.ok (Number.intNum 14) ∧
    safe_eval (some ("2-3-4")) = Except.ok (Number.intNum (-5)) ∧
    safe_eval (some ("2^3^2")) = Except.ok (Number.intNum 512) ∧
    safe_eval (some ("10 / 4")) = Except.ok (Number.floatNum (mkRat 5 2)) :=
  ⟨fun _ _ h => spec_eval_safe h, by decide, by decide, by decide, by decide,
   by decide, by decide, by decide, by decide⟩

/-- Witness for claim C2 at the input 2+3*4, whose specification value is
14. -/
theorem claim_C2_witness :
    specEvalStr ("2+3*4") = some 14 ∧
    ∃ v, safe_eval (some ("2+3*4")) = Except.ok v ∧ v.toRat = 14 :=
  ⟨by decide, claim_C2.1 ("2+3*4") 14 (by decide)⟩

/-- Claim C3: for every input, `safe_eval` either returns a numeric value
or fails with the single error type `EvalError` carrying a non-empty
human-readable message — no host parser exception escapes unconverted,
since every failure is one of the four `EvalError` constructors — and
both the `none` input and the empty string fail with the
empty-or-invalid-input cause. -/
theorem claim_C3 :
    (∀ input : Option String, (∃ v, safe_eval input = Except.ok v) ∨
      ∃ e, safe_eval input = Except.error e ∧ EvalError.message e ≠ "") ∧
    safe_eval Option.none = Except.error EvalError.emptyInput ∧
    safe_eval (some ("")) = Except.error EvalError.emptyInput ∧
    EvalError.message EvalError.emptyInput = "Empty or invalid expression." := by
  refine ⟨?_, rfl, rfl, rfl⟩
  intro input
  rcases hres : safe_eval input with e | v
  · right
    refine ⟨e, rfl, ?_⟩
    cases e with
    | emptyInput => decide
    | unsupported => decide
    | divByZero => decide
    | invalid d =>
        intro hcon
        have h2 := congrArg String.length hcon
        rw [EvalError.message, String.length_append] at h2
        have e1 : ("Invalid expression: ").length = 20 := rfl
        have e2 : ("" : String).length = 0 := rfl
        rw [e1, e2] at h2
        omega
  · left
    exact ⟨v, rfl⟩

/-- Claim C4: a division by zero during the whitelist walk is surfaced by
`safe_eval` as the distinct division-by-zero-labeled error, not the
generic parse-failure label, and in particular 5/0 fails with that
error. -/
theorem claim_C4 :
    safe_eval (some ("5/0")) = Except.error EvalError.divByZero ∧
    EvalError.message EvalError.divByZero = "Division by zero." ∧
    (∀ d, EvalError.divByZero ≠ EvalError.invalid d) ∧
    (∀ d, EvalError.message EvalError.divByZero ≠
      EvalError.message (EvalError.invalid d)) ∧
    (∀ (s : String) (t : PyAst), pyParseExpr (replaceCaret s) = Except.ok t →
      evalA t = Except.error EvalExc.zeroDiv →
      safe_eval (some s) = Except.error EvalError.divByZero) := by
  refine ⟨by decide, rfl, ?_, ?_, ?_⟩
  · intro d hcon
    cases hcon
  · intro d hcon
    have h2 := congrArg String.length hcon
    rw [EvalError.message, EvalError.message, String.length_append] at h2
    have e1 : ("Division by zero.").length = 17 := rfl
    have e2 : ("Invalid expression: ").length = 20 := rfl
    rw [e1, e2] at h2
    omega
  · intro s t hp hz
    by_cases hse : s = ""
    · exfalso
      rw [hse] at hp
      have hne : pyParseExpr (replaceCaret ("")) =
          Except.error ("invalid syntax") := rfl
      rw [hne] at hp
      cases hp
    · simp only [safe_eval]
      rw [if_neg hse]
      simp only [hp, hz]

/-- Witness for claim C4 at the input 5/0 and its parsed tree. -/
theorem claim_C4_witness :
    safe_eval (some ("5/0")) = Except.error EvalError.divByZero :=
  claim_C4.2.2.2.2 ("5/0") fiveOverZeroTree rfl (by decide)

/-- Claim C5: the presentation step turns every float result with a zero
fractional part (denominator 1 in the exact-rational model) into the
corresponding integer, and a float survives presentation only when its
fractional part is nonzero; in particular 2+2 evaluates to the integer
4, which presents as the integer 4, and a float-valued 4 presents as the
integer 4, never as 4.0. -/
theorem claim_C5 :
    (∀ q : ℚ, q.den = 1 → present (Number.floatNum q) = Number.intNum q.num) ∧
    (∀ (v : Number) (q : ℚ), present v = Number.floatNum q → q.den ≠ 1) ∧
    safe_eval (some ("2+2")) = Except.ok (Number.intNum 4) ∧
    present (Number.intNum 4) = Number.intNum 4 ∧
    present (Number.floatNum 4) = Number.intNum 4 := by
  refine ⟨?_, ?_, by decide, rfl, by decide⟩
  · intro q hq
    rw [present, if_pos hq]
  · intro v q hpres
    cases v with
    | intNum n => cases hpres
    | boolNum b => cases hpres
    | floatNum x =>
        rw [present] at hpres
        by_cases hx : x.den = 1
        · rw [if_pos hx] at hpres
          cases hpres
        · rw [if_neg hx] at hpres
          cases hpres
          exact hx

/-- Witness for claim C5 at the integer-valued float 8/2. -/
theorem claim_C5_witness :
    present (Number.floatNum (mkRat 8 2)) = Number.intNum (mkRat 8 2).num :=
  claim_C5.1 (mkRat 8 2) (by decide)

/-- Claim C10: the literal check accepts boolean constants, because the
host marks booleans as a numeric (integer) type: True evaluates to the
boolean True with no digit in the input, and True+1 evaluates to the
integer 2 by integer promotion of the boolean. -/
theorem claim_C10 :
    safe_eval (some ("True")) = Except.ok (Number.boolNum true) ∧
    safe_eval (some ("True+1")) = Except.ok (Number.intNum 2) ∧
    evalA (PyAst.constant (PyVal.boolVal true)) =
      Except.ok (Number.boolNum true) ∧
    evalA (PyAst.constant (PyVal.boolVal false)) =
      Except.ok (Number.boolNum false) :=
  ⟨by decide, by decide, rfl, rfl⟩
